import Mathlib

/-!
A shallow embedding of the `cds` compressed bit-set library.

The block layer (`src/src/bits/block/mod.rs`) stores a set of 16-bit values
in one of three physical representations:

* `Seq16` — a strictly ascending list of 16-bit keys,
* `Seq64` — a dense array of 1024 machine words of 64 bits,
* `Rle16` — a sorted list of disjoint, non-adjacent inclusive ranges.

Machine integers are embedded as `Nat`; an explicit `% 2 ^ w` appears
exactly where the source performs a narrowing cast.  The per-representation
container files (`seq16.rs`, `seq64.rs`, `rle16.rs`), the search macros and
the `Vec32` shard are not part of the sources; every definition standing in
for them carries a doc comment starting with `Modelled from the spec:`.
-/

namespace Cds

/-- Modelled from the spec: §4.1 primitive `rank1(i)` on a machine word,
the popcount of the bits strictly below `i` (`seq64.rs` is missing). -/
def popBelow (w i : Nat) : Nat :=
  (List.range i).countP (fun j => w.testBit j)

/-- Modelled from the spec: §4.1 `popcount` of a 64-bit word
(`u64::count1`, `seq64.rs` is missing). -/
def pop (w : Nat) : Nat :=
  popBelow w 64

/-- The positions of the set bits of a 64-bit word, in ascending order. -/
def wordBits (w : Nat) : List Nat :=
  (List.range 64).filter (fun j => w.testBit j)

/-- Modelled from the spec: §4.1 primitive `select1(k)` on a machine word,
the position of the `(k+1)`-th set bit (`u64::select1`, missing). -/
def wordSelect1 (w c : Nat) : Option Nat :=
  (wordBits w).get? c

/-- `Seq<T>` from `block/mod.rs`: a weight plus a backing vector.
Instantiated both at `T = u16` (`Seq16`) and `T = u64` (`Seq64`). -/
structure Seq where
  weight : Nat
  vector : List Nat
deriving DecidableEq

/-- `Rle<u16>` from `block/mod.rs`: a weight plus inclusive ranges. -/
structure Rle where
  weight : Nat
  ranges : List (Nat × Nat)
deriving DecidableEq

/-- The tagged representation union `Block` from `block/mod.rs`. -/
inductive Block where
  | seq16 : Seq → Block
  | seq64 : Seq → Block
  | rle16 : Rle → Block
deriving DecidableEq

/-- The representation tag (`Kind` in `block/mod.rs`). -/
inductive Kind where
  | seq16
  | seq64
  | rle16
deriving DecidableEq

def Block.kind : Block → Kind
  | .seq16 _ => .seq16
  | .seq64 _ => .seq64
  | .rle16 _ => .rle16

/-- Modelled from the spec: §4.2 `Seq16::contains` is a binary search in a
strictly ascending vector, i.e. membership (`seq16.rs` is missing). -/
def seq16Contains (s : Seq) (b : Nat) : Bool :=
  s.vector.contains b

/-- Modelled from the spec: §3 bit `i` of a `Seq64` lives in word `i >> 6`
at position `i & 63` (`seq64.rs` is missing). -/
def seq64Contains (s : Seq) (b : Nat) : Bool :=
  Nat.testBit (s.vector.getD (b / 64) 0) (b % 64)

/-- Modelled from the spec: §4.4 `Rle16::contains` finds a range with
`lo ≤ x ≤ hi` (`rle16.rs` is missing). -/
def rle16Contains (r : Rle) (b : Nat) : Bool :=
  r.ranges.any (fun p => p.1 ≤ b && b ≤ p.2)

/-- `Block::contains` (`block/mod.rs`, lines 106-112). -/
def Block.contains : Block → Nat → Bool
  | .seq16 s, b => seq16Contains s b
  | .seq64 s, b => seq64Contains s b
  | .rle16 r, b => rle16Contains r b

/-- `PopCount::count1` for `Block` (`block/mod.rs`, lines 215-221):
the stored weight field. -/
def Block.count1 : Block → Nat
  | .seq16 s => s.weight
  | .seq64 s => s.weight
  | .rle16 r => r.weight

/-- The set-bit positions of a word list enumerated from word index `k`. -/
def seq64BitsFrom (k : Nat) (ws : List Nat) : List Nat :=
  (List.enumFrom k ws).flatMap (fun p => (wordBits p.2).map (fun j => 64 * p.1 + j))

/-- The ascending element list of a `Seq64`: for each word, its set bits
offset by 64 times the word index (iteration order of `Seq64Iter`). -/
def seq64ToList (s : Seq) : List Nat :=
  seq64BitsFrom 0 s.vector

/-- Expansion of a list of inclusive ranges to its elements. -/
def expandRuns (rs : List (Nat × Nat)) : List Nat :=
  rs.flatMap (fun p => List.range' p.1 (p.2 + 1 - p.1))

/-- The ascending element list of an `Rle16`: each inclusive range expanded
(iteration order of `Rle16Iter`). -/
def rle16ToList (r : Rle) : List Nat :=
  expandRuns r.ranges

/-- The ascending element list of a block (its iterator output). -/
def Block.toList : Block → List Nat
  | .seq16 s => s.vector
  | .seq64 s => seq64ToList s
  | .rle16 r => rle16ToList r

/-- §3 invariants of `Seq16`: strictly ascending 16-bit keys, weight =
length. -/
def SeqValid16 (s : Seq) : Prop :=
  s.vector.Pairwise (· < ·) ∧ (∀ x ∈ s.vector, x < 65536) ∧
    s.weight = s.vector.length

/-- §3 invariants of `Seq64`: exactly 1024 words, weight = total popcount. -/
def SeqValid64 (s : Seq) : Prop :=
  s.vector.length = 1024 ∧ s.weight = (s.vector.map pop).sum

/-- §3 invariants of `Rle16`: non-empty, non-overlapping, non-adjacent
inclusive 16-bit ranges, weight = total length. -/
def RleValid (r : Rle) : Prop :=
  r.ranges.Pairwise (fun p q => p.2 + 1 < q.1) ∧
    (∀ p ∈ r.ranges, p.1 ≤ p.2 ∧ p.2 < 65536) ∧
    r.weight = (r.ranges.map (fun p => p.2 + 1 - p.1)).sum

instance (s : Seq) : Decidable (SeqValid16 s) := by
  unfold SeqValid16; infer_instance

instance (s : Seq) : Decidable (SeqValid64 s) := by
  unfold SeqValid64; infer_instance

instance (r : Rle) : Decidable (RleValid r) := by
  unfold RleValid; infer_instance

/-- A structurally valid block (§3 table of invariants). -/
def Block.Valid : Block → Prop
  | .seq16 s => SeqValid16 s
  | .seq64 s => SeqValid64 s
  | .rle16 r => RleValid r

instance (b : Block) : Decidable b.Valid :=
  match b with
  | .seq16 s => inferInstanceAs (Decidable (SeqValid16 s))
  | .seq64 s => inferInstanceAs (Decidable (SeqValid64 s))
  | .rle16 r => inferInstanceAs (Decidable (RleValid r))

/-- Modelled from the spec: §3 size estimator `size(Seq16, n) = 16 + 2·n`
(`Seq16::size`, `seq16.rs` is missing). -/
def seq16SizeInBytes (n : Nat) : Nat := 16 + 2 * n

/-- Modelled from the spec: §3 size estimator `size(Seq64) = 16 + 8·1024`
(`Seq64::size`, `seq64.rs` is missing). -/
def seq64SizeInBytes (n : Nat) : Nat := 16 + 8 * n

/-- Modelled from the spec: §3 size estimator `size(Rle16, r) = 16 + 4·r`
(`Rle16::size`, `rle16.rs` is missing). -/
def rle16SizeInBytes (r : Nat) : Nat := 16 + 4 * r

/-- Modelled from the spec: `mem_size` of each representation is the §3
size estimator applied to the current backing length (missing files). -/
def Block.memSize : Block → Nat
  | .seq16 s => seq16SizeInBytes s.vector.length
  | .seq64 s => seq64SizeInBytes s.vector.length
  | .rle16 r => rle16SizeInBytes r.ranges.length

/-- Helper of `runsOf`: extends the open run `[lo, hi]` while the next
element is adjacent, else closes it and starts a new run. -/
def runsAux (lo hi : Nat) : List Nat → List (Nat × Nat)
  | [] => [(lo, hi)]
  | y :: ys => if y = hi + 1 then runsAux lo y ys else (lo, hi) :: runsAux y y ys

/-- Modelled from the spec: §4.2/§8 maximal contiguous ascending runs of a
sorted sequence, as inclusive ranges (`Rle16::from`, missing files). -/
def runsOf : List Nat → List (Nat × Nat)
  | [] => []
  | x :: xs => runsAux x x xs

/-- Length of an inclusive range (`r.end - r.start + 1` in the source). -/
def rangeLen (p : Nat × Nat) : Nat := p.2 - p.1 + 1

/-- Build a `Seq16` from an ascending element list. -/
def seq16OfList (l : List Nat) : Seq := ⟨l.length, l⟩

/-- Build an `Rle16` from an ascending element list via its runs. -/
def rle16OfList (l : List Nat) : Rle :=
  ⟨((runsOf l).map rangeLen).sum, runsOf l⟩

/-- `Seq64::new`: 1024 zero words, weight 0. -/
def seq64New : Seq := ⟨0, List.replicate 1024 0⟩

/-- Modelled from the spec: §4.3 `Seq64::insert` sets the bit in its word
and bumps the weight when the bit was absent (`seq64.rs` is missing). -/
def seq64Insert (s : Seq) (b : Nat) : Seq :=
  if (s.vector.getD (b / 64) 0).testBit (b % 64) then s
  else ⟨s.weight + 1,
    s.vector.set (b / 64) (s.vector.getD (b / 64) 0 ||| 1 <<< (b % 64))⟩

/-- Modelled from the spec: §4.3 `Seq64::remove` clears the bit in its word
and drops the weight when the bit was present (`seq64.rs` is missing). -/
def seq64Remove (s : Seq) (b : Nat) : Seq :=
  if (s.vector.getD (b / 64) 0).testBit (b % 64) then
    ⟨s.weight - 1,
      s.vector.set (b / 64) (Nat.ldiff (s.vector.getD (b / 64) 0) (1 <<< (b % 64)))⟩
  else s

/-- Modelled from the spec: §4.3 `Seq64::from(Seq16)` / range iteration —
set every listed bit starting from an empty `Seq64`. -/
def seq64OfList (l : List Nat) : Seq := l.foldl seq64Insert seq64New

/-- `Seq64::from(&Seq16)` (missing file): set the listed bits. -/
def seq64OfSeq16 (s : Seq) : Seq := seq64OfList s.vector

/-- `Seq64::from(&Rle16)` (missing file): set every bit of every range. -/
def seq64OfRle16 (r : Rle) : Seq := seq64OfList (rle16ToList r)

/-- `Seq16::from(&Seq64)` (missing file): collect the ascending bits. -/
def seq16OfSeq64 (s : Seq) : Seq := seq16OfList (seq64ToList s)

/-- `Seq16::from(&Rle16)` (missing file): expand the ranges in order. -/
def seq16OfRle16 (r : Rle) : Seq := seq16OfList (rle16ToList r)

/-- `Rle16::from(&Seq16)` (missing file): the runs of the sorted vector. -/
def rle16OfSeq16 (s : Seq) : Rle := rle16OfList s.vector

/-- `Rle16::from(&Seq64)` (missing file): the runs of the bit list. -/
def rle16OfSeq64 (s : Seq) : Rle := rle16OfList (seq64ToList s)

/-- The block reshaped to `Rle16` (the `Rle16` outcome of `optimize`;
the identity on an `Rle16` block). -/
def toRleBlock : Block → Block
  | .seq16 s => .rle16 (rle16OfSeq16 s)
  | .seq64 s => .rle16 (rle16OfSeq64 s)
  | .rle16 r => .rle16 r

/-- The block reshaped to `Seq16` (the `Seq16` outcome of `optimize`;
the identity on a `Seq16` block). -/
def toSeq16Block : Block → Block
  | .seq16 s => .seq16 s
  | .seq64 s => .seq16 (seq16OfSeq64 s)
  | .rle16 r => .seq16 (seq16OfRle16 r)

/-- The block reshaped to `Seq64` (the `Seq64` outcome of `optimize`;
the identity on a `Seq64` block). -/
def toSeq64Block : Block → Block
  | .seq16 s => .seq64 (seq64OfSeq16 s)
  | .seq64 s => .seq64 s
  | .rle16 r => .seq64 (seq64OfRle16 r)

/-- `Block::optimize` (`block/mod.rs`, lines 155-209).  `SEQ16 = 4096`,
`SEQ64 = 1024`; in each branch compare the three projected sizes and
reshape accordingly (`None` in the source means "keep"). -/
def Block.optimize (b : Block) : Block :=
  match b with
  | .seq16 seq =>
      let memInSeq16 := Block.memSize b
      let memInSeq64 := seq64SizeInBytes 1024
      let rle := rle16OfSeq16 seq
      let memInRle16 := rle16SizeInBytes rle.ranges.length
      if memInRle16 ≤ min memInSeq64 memInSeq16 then .rle16 rle
      else if b.count1 ≤ 4096 then b
      else .seq64 (seq64OfSeq16 seq)
  | .seq64 seq =>
      let memInSeq16 := seq16SizeInBytes seq.weight
      let memInSeq64 := Block.memSize b
      let rle := rle16OfSeq64 seq
      let memInRle16 := rle16SizeInBytes rle.ranges.length
      if memInRle16 ≤ min memInSeq64 memInSeq16 then .rle16 rle
      else if seq.weight ≤ 4096 then .seq16 (seq16OfSeq64 seq)
      else b
  | .rle16 rle =>
      let memInSeq16 := seq16SizeInBytes rle.weight
      let memInSeq64 := seq64SizeInBytes 1024
      let memInRle16 := Block.memSize b
      if memInRle16 ≤ min memInSeq64 memInSeq16 then b
      else if rle.weight ≤ 4096 then .seq16 (seq16OfRle16 rle)
      else .seq64 (seq64OfRle16 rle)

/-- Run count "taken from the current representation" (§4.5): the length of
the `Rle16` the source builds in each `optimize` branch. -/
def Block.countRle : Block → Nat
  | .seq16 s => (runsOf s.vector).length
  | .seq64 s => (runsOf (seq64ToList s)).length
  | .rle16 r => r.ranges.length

/-- Modelled from the spec: §4.4 `Rle16::search` — binary search for the
range with `lo ≤ x ≤ hi`; `.inr n` is the Rust `Ok(n)` (found at index
`n`), `.inl n` the `Err(n)` insertion point (`rle16.rs` is missing). -/
def rleSearch : List (Nat × Nat) → Nat → Sum Nat Nat
  | [], _ => .inl 0
  | p :: ps, i =>
    if i < p.1 then .inl 0
    else if i ≤ p.2 then .inr 0
    else
      match rleSearch ps i with
      | .inl n => .inl (n + 1)
      | .inr n => .inr (n + 1)

/-- `Rank<u16>::rank1` for `Block` (`block/mod.rs`, lines 224-266).  The
`Seq16` arm models the `search!` macro (count of entries `< i` in a sorted
vector); the `as u16` cast on the weight is the explicit `% 65536`. -/
def Block.rank1 (b : Block) (i : Nat) : Nat :=
  match b with
  | .seq16 s => s.vector.findIdx (fun v => i ≤ v)
  | .seq64 s =>
      let q := i / 64
      let r := i % 64
      ((s.vector.take q).map pop).sum + popBelow (s.vector.getD q 0) r
  | .rle16 r =>
      match rleSearch r.ranges i with
      | .inl n =>
          if r.ranges.length ≤ n then r.weight % 65536
          else ((r.ranges.take n).map rangeLen).sum
      | .inr n => i - (r.ranges.getD n (0, 0)).1 + ((r.ranges.take n).map rangeLen).sum

/-- The `Seq64` loop of `Block::select1` (`block/mod.rs`, lines 277-287)
over the enumerated, non-zero words. -/
def sel64Go : List (Nat × Nat) → Nat → Option Nat
  | [], _ => none
  | p :: ps, c =>
      let ones := pop p.2
      if c < ones then some (64 * p.1 + (wordSelect1 p.2 c).getD 0)
      else sel64Go ps (c - ones)

/-- The `Rle16` loop of `Block::select1` (`block/mod.rs`, lines 291-299):
running cardinality `curr` over the ranges. -/
def rleSelGo : List (Nat × Nat) → Nat → Nat → Option Nat
  | [], _, _ => none
  | p :: ps, curr, c =>
      let next := curr + (p.2 - p.1 + 1)
      if c < next then some (p.1 - curr + c)
      else rleSelGo ps next c

/-- `Select1<u16>::select1` for `Block` (`block/mod.rs`, lines 268-303). -/
def Block.select1 (b : Block) (c : Nat) : Option Nat :=
  if b.count1 ≤ c then none
  else
    match b with
    | .seq16 s => s.vector.get? c
    | .seq64 s => sel64Go (s.vector.enum.filter (fun p => p.2 != 0)) c
    | .rle16 r => rleSelGo r.ranges 0 c

/-- Modelled from the spec: §4.7 `select0` as the dual of `select1` — the
position of the `(k+1)`-th zero bit (the `select_by_rank!` macro of the
source is missing). -/
def Block.select0 (b : Block) (c : Nat) : Option Nat :=
  ((List.range 65536).filter (fun x => !(b.contains x))).get? c

/-- Modelled from the spec: the 32-bit shard `Vec32` (not under the given
sources) — an ordered map from 16-bit high keys to blocks (§4.8, W = 32). -/
structure Vec32 where
  blocks : List (Nat × Block)
deriving DecidableEq

/-- Modelled from the spec: §4.8 `count_ones` is the sum of block weights. -/
def Vec32.countOnes (v : Vec32) : Nat :=
  (v.blocks.map (fun p => p.2.count1)).sum

/-- Modelled from the spec: §4.8 `count_zeros = 2^W − count_ones`. -/
def Vec32.countZeros (v : Vec32) : Nat := 2 ^ 32 - v.countOnes

/-- Modelled from the spec: §4.8 `rank1` scan over ascending keys. -/
def vec32Rank1Go (hi lo : Nat) : List (Nat × Block) → Nat
  | [] => 0
  | p :: ps =>
      if hi < p.1 then 0
      else if p.1 = hi then Block.rank1 p.2 lo
      else p.2.count1 + vec32Rank1Go hi lo ps

/-- Modelled from the spec: §4.8 `Vec32::rank1` (W = 32). -/
def Vec32.rank1 (v : Vec32) (i : Nat) : Nat :=
  vec32Rank1Go (i / 2 ^ 16) (i % 2 ^ 16) v.blocks

/-- Modelled from the spec: §4.8 `select0` scan (W = 32): subtract zero
counts per present key; base is `0` before the first key, otherwise
`(key − 1) << 16`. -/
def vec32Sel0Go : List (Nat × Block) → Nat → Option Nat
  | [], _ => none
  | p :: ps, rem =>
      let w := 65536 - p.2.count1
      if rem < w then
        (Block.select0 p.2 rem).map
          (fun s => (if p.1 = 0 then 0 else (p.1 - 1) <<< 16) + s)
      else vec32Sel0Go ps (rem - w)

/-- Modelled from the spec: §4.8 `Vec32::select0` (W = 32). -/
def Vec32.select0 (v : Vec32) (c : Nat) : Option Nat :=
  vec32Sel0Go v.blocks c

/-- `Vec64` (`vec64/mod.rs`): an ordered map from 32-bit keys to `Vec32`. -/
structure Vec64 where
  vec32s : List (Nat × Vec32)
deriving DecidableEq

/-- `Vec64::count_ones` (`vec64/mod.rs`, lines 28-34). -/
def Vec64.countOnes (m : Vec64) : Nat :=
  (m.vec32s.map (fun p => p.2.countOnes)).sum

/-- `Vec64::count_zeros` (`vec64/mod.rs`, lines 36-38): `(1 << 64) −
count_ones`. -/
def Vec64.countZeros (m : Vec64) : Nat := 2 ^ 64 - m.countOnes

/-- The key loop of `Vec64::rank1` (`vec64/mod.rs`, lines 154-168): stop at
the first key `> hi`; at `hi` itself add the shard rank; below it add the
full shard weight. -/
def vec64Rank1Go (hi lo : Nat) : List (Nat × Vec32) → Nat
  | [] => 0
  | p :: ps =>
      if hi < p.1 then 0
      else if p.1 = hi then p.2.rank1 lo
      else p.2.countOnes + vec64Rank1Go hi lo ps

/-- `Vec64::rank1` (`vec64/mod.rs`, lines 153-168): occurrences of non-zero
bits in `[0, i]`, with `(hi, lo) = i.split()`. -/
def Vec64.rank1 (m : Vec64) (i : Nat) : Nat :=
  vec64Rank1Go ((i >>> 32) % 2 ^ 32) (i % 2 ^ 32) m.vec32s

/-- `Vec64::rank0` (`vec64/mod.rs`, lines 170-178): `0` at `i = 0`, else
`i + 1 − rank1(i)`. -/
def Vec64.rank0 (m : Vec64) (i : Nat) : Nat :=
  if i = 0 then 0 else i + 1 - m.rank1 i

/-- The key loop of `Vec64::select0` (`vec64/mod.rs`, lines 197-210):
subtract per-shard zero counts; base `0` for key `0`, else
`(key − 1) << 32`. -/
def vec64Sel0Go : List (Nat × Vec32) → Nat → Option Nat
  | [], _ => none
  | p :: ps, rem =>
      let w := p.2.countZeros
      if rem < w then
        (p.2.select0 rem).map
          (fun s => (if p.1 = 0 then 0 else (p.1 - 1) <<< 32) + s)
      else vec64Sel0Go ps (rem - w)

/-- `Vec64::select0` (`vec64/mod.rs`, lines 196-210). -/
def Vec64.select0 (m : Vec64) (c : Nat) : Option Nat :=
  vec64Sel0Go m.vec32s c

/-- `SplitMerge::split` for `u64` (`bits.rs`, lines 60-78): the `as u32`
narrowing casts are the explicit `% 2 ^ 32`. -/
def split64 (x : Nat) : Nat × Nat := ((x >>> 32) % 2 ^ 32, x % 2 ^ 32)

/-- `SplitMerge::merge` for `u64` (`bits.rs`, lines 69-73): widening casts
are lossless; the shift happens in 64-bit arithmetic. -/
def merge64 (p : Nat × Nat) : Nat := ((p.1 <<< 32) % 2 ^ 64) ||| p.2

/-- `SplitMerge::split` for `u32`. -/
def split32 (x : Nat) : Nat × Nat := ((x >>> 16) % 2 ^ 16, x % 2 ^ 16)

/-- `SplitMerge::merge` for `u32`. -/
def merge32 (p : Nat × Nat) : Nat := ((p.1 <<< 16) % 2 ^ 32) ||| p.2

/-- `SplitMerge::split` for `u16`. -/
def split16 (x : Nat) : Nat × Nat := ((x >>> 8) % 2 ^ 8, x % 2 ^ 8)

/-- `SplitMerge::merge` for `u16`. -/
def merge16 (p : Nat × Nat) : Nat := ((p.1 <<< 8) % 2 ^ 16) ||| p.2

/-- `PopCount<T>` (`bits.rs`, lines 25-30): either an in-range count or the
distinguished `Full` value standing for `2 ^ w`. -/
inductive PopCnt where
  | ones : Nat → PopCnt
  | full
deriving DecidableEq

/-- `PopCount::new` (`bits.rs`, lines 105-115) at width `w`:
`max = MAX + 1 = 2 ^ w`; counts above `max` also map to `Full` (after a
debug assertion); the `as $type` cast is the explicit `% 2 ^ w`. -/
def popCntNew (w c : Nat) : PopCnt :=
  if 2 ^ w < c then .full
  else if 2 ^ w = c then .full
  else .ones (c % 2 ^ w)

/-- `PopCount::cardinality` (`bits.rs`, lines 116-121) at width `w`. -/
def popCntCard (w : Nat) : PopCnt → Nat
  | .ones p => p
  | .full => 2 ^ w

/-- Modelled from the spec: §4.6 sorted-merge union of two ascending
sequences (`bits/pair.rs` and `seq16.rs` are missing). -/
def unionMerge : List Nat → List Nat → List Nat
  | [], l2 => l2
  | l1, [] => l1
  | a :: l1, b :: l2 =>
      if a < b then a :: unionMerge l1 (b :: l2)
      else if b < a then b :: unionMerge (a :: l1) l2
      else a :: unionMerge l1 l2
termination_by l1 l2 => l1.length + l2.length

/-- Modelled from the spec: §4.6 sorted-merge symmetric difference of two
ascending sequences — common elements are dropped (missing files). -/
def xorMerge : List Nat → List Nat → List Nat
  | [], l2 => l2
  | l1, [] => l1
  | a :: l1, b :: l2 =>
      if a < b then a :: xorMerge l1 (b :: l2)
      else if b < a then b :: xorMerge (a :: l1) l2
      else xorMerge l1 l2
termination_by l1 l2 => l1.length + l2.length

/-- Modelled from the spec: §4.6 intersection of two sorted sequences —
keep the left elements present on the right (missing files). -/
def pairInter (l1 l2 : List Nat) : List Nat :=
  l1.filter (fun x => l2.contains x)

/-- Modelled from the spec: §4.6 difference of two sorted sequences — keep
the left elements absent on the right (missing files). -/
def pairDiff (l1 l2 : List Nat) : List Nat :=
  l1.filter (fun x => !(l2.contains x))

/-- Modelled from the spec: §4.6 "Both `Seq16`" arms of the four in-place
operators (`seq16.rs` is missing); the weight is the new length. -/
def seq16Inter (s1 s2 : Seq) : Seq := seq16OfList (pairInter s1.vector s2.vector)

/-- Modelled from the spec: see `seq16Inter`. -/
def seq16Union (s1 s2 : Seq) : Seq := seq16OfList (unionMerge s1.vector s2.vector)

/-- Modelled from the spec: see `seq16Inter`. -/
def seq16Diff (s1 s2 : Seq) : Seq := seq16OfList (pairDiff s1.vector s2.vector)

/-- Modelled from the spec: see `seq16Inter`. -/
def seq16Xor (s1 s2 : Seq) : Seq := seq16OfList (xorMerge s1.vector s2.vector)

/-- Modelled from the spec: §4.6 `Seq64 × Seq64` — pointwise word
operation, weight recomputed (`seq64.rs` is missing). -/
def seq64WordWise (f : Nat → Nat → Nat) (s1 s2 : Seq) : Seq :=
  let v := List.zipWith f s1.vector s2.vector
  ⟨(v.map pop).sum, v⟩

/-- Pointwise `&` on the word arrays. -/
def seq64Inter (s1 s2 : Seq) : Seq := seq64WordWise Nat.land s1 s2

/-- Pointwise `|` on the word arrays. -/
def seq64Union (s1 s2 : Seq) : Seq := seq64WordWise Nat.lor s1 s2

/-- Pointwise `& !` on the word arrays. -/
def seq64Diff (s1 s2 : Seq) : Seq := seq64WordWise Nat.ldiff s1 s2

/-- Pointwise `^` on the word arrays. -/
def seq64Xor (s1 s2 : Seq) : Seq := seq64WordWise Nat.xor s1 s2

/-- The toggle of the `Seq64`-left symmetric-difference arms
(`block/mod.rs`, lines 558-574): remove a present bit, insert an absent
one. -/
def seq64Toggle (s : Seq) (b : Nat) : Seq :=
  if seq64Contains s b then seq64Remove s b else seq64Insert s b

/-- Modelled from the spec: §4.4 `Rle16 × Rle16` range-merge operators
(`rle16.rs` is missing) — the resulting run list encodes the intersection
of the two expanded sets, invariant restored. -/
def rleInter (r1 r2 : Rle) : Rle :=
  rle16OfList (pairInter (rle16ToList r1) (rle16ToList r2))

/-- Modelled from the spec: see `rleInter` (union). -/
def rleUnion (r1 r2 : Rle) : Rle :=
  rle16OfList (unionMerge (rle16ToList r1) (rle16ToList r2))

/-- Modelled from the spec: see `rleInter` (difference). -/
def rleDiff (r1 r2 : Rle) : Rle :=
  rle16OfList (pairDiff (rle16ToList r1) (rle16ToList r2))

/-- Modelled from the spec: see `rleInter` (symmetric difference). -/
def rleXor (r1 r2 : Rle) : Rle :=
  rle16OfList (xorMerge (rle16ToList r1) (rle16ToList r2))

/-- The `Seq16 × Seq64` intersection arm (`block/mod.rs`, lines 456-469):
compact the left vector in place, keeping entries set on the right. -/
def seq16InterSeq64 (s1 s2 : Seq) : Seq :=
  let v := s1.vector.filter (fun x => seq64Contains s2 x)
  ⟨v.length, v⟩

/-- `Block::as_seq64` (`block/mod.rs`, lines 146-152).  The `Seq64` input
hits `unreachable!()`, embedded as `none`. -/
def Block.asSeq64 : Block → Option Seq
  | .seq16 s => some (seq64OfSeq16 s)
  | .rle16 r => some (seq64OfRle16 r)
  | .seq64 _ => none

/-- The `Seq64`-left intersection arms (`block/mod.rs`, lines 471-481),
also the landing point of the fallback recursion after `as_seq64`. -/
def seq64InterBlock (b1 : Seq) : Block → Seq
  | .seq64 b2 => seq64Inter b1 b2
  | .seq16 b2 => seq64Inter b1 (seq64OfSeq16 b2)
  | .rle16 b2 => seq64Inter b1 (seq64OfRle16 b2)

/-- The `Seq64`-left union arms (`block/mod.rs`, lines 498-508): word-wise
against `Seq64`, bit-insertion loops against `Seq16` and `Rle16`. -/
def seq64UnionBlock (b1 : Seq) : Block → Seq
  | .seq64 b2 => seq64Union b1 b2
  | .seq16 b2 => b2.vector.foldl seq64Insert b1
  | .rle16 b2 => (rle16ToList b2).foldl seq64Insert b1

/-- The `Seq64`-left difference arms (`block/mod.rs`, lines 525-535). -/
def seq64DiffBlock (b1 : Seq) : Block → Seq
  | .seq64 b2 => seq64Diff b1 b2
  | .seq16 b2 => b2.vector.foldl seq64Remove b1
  | .rle16 b2 => (rle16ToList b2).foldl seq64Remove b1

/-- The `Seq64`-left symmetric-difference arms (`block/mod.rs`, lines
554-574). -/
def seq64XorBlock (b1 : Seq) : Block → Seq
  | .seq64 b2 => seq64Xor b1 b2
  | .seq16 b2 => b2.vector.foldl seq64Toggle b1
  | .rle16 b2 => (rle16ToList b2).foldl seq64Toggle b1

/-- `IntersectionWith for Block` (`block/mod.rs`, lines 451-491).  The
final arm is the `as_seq64` fallback; a `none` result would mean the
`unreachable!()` branch was taken. -/
def Block.interWith : Block → Block → Option Block
  | .seq16 b1, .seq16 b2 => some (.seq16 (seq16Inter b1 b2))
  | .seq16 b1, .seq64 b2 => some (.seq16 (seq16InterSeq64 b1 b2))
  | .seq64 b1, b2 => some (.seq64 (seq64InterBlock b1 b2))
  | .rle16 b1, .rle16 b2 => some (.rle16 (rleInter b1 b2))
  | b1, b2 => b1.asSeq64.map (fun s => .seq64 (seq64InterBlock s b2))

/-- `UnionWith for Block` (`block/mod.rs`, lines 493-517). -/
def Block.unionWith : Block → Block → Option Block
  | .seq16 b1, .seq16 b2 => some (.seq16 (seq16Union b1 b2))
  | .seq64 b1, b2 => some (.seq64 (seq64UnionBlock b1 b2))
  | .rle16 b1, .rle16 b2 => some (.rle16 (rleUnion b1 b2))
  | b1, b2 => b1.asSeq64.map (fun s => .seq64 (seq64UnionBlock s b2))

/-- `DifferenceWith for Block` (`block/mod.rs`, lines 520-544). -/
def Block.diffWith : Block → Block → Option Block
  | .seq16 b1, .seq16 b2 => some (.seq16 (seq16Diff b1 b2))
  | .seq64 b1, b2 => some (.seq64 (seq64DiffBlock b1 b2))
  | .rle16 b1, .rle16 b2 => some (.rle16 (rleDiff b1 b2))
  | b1, b2 => b1.asSeq64.map (fun s => .seq64 (seq64DiffBlock s b2))

/-- `SymmetricDifferenceWith for Block` (`block/mod.rs`, lines 547-586). -/
def Block.symmDiffWith : Block → Block → Option Block
  | .seq16 b1, .seq16 b2 => some (.seq16 (seq16Xor b1 b2))
  | .seq64 b1, b2 => some (.seq64 (seq64XorBlock b1 b2))
  | .rle16 b1, .rle16 b2 => some (.rle16 (rleXor b1 b2))
  | b1, b2 => b1.asSeq64.map (fun s => .seq64 (seq64XorBlock s b2))

/-- `FromIterator<u16> for Block` (`block/mod.rs`, lines 330-341): insert
into a fresh block, whose default representation is an empty `Seq64`. -/
def collectBlock (l : List Nat) : Block :=
  .seq64 (l.foldl seq64Insert seq64New)

/-- Allocating intersection of two borrowed blocks (`impl_Pairwise!`,
`block/mod.rs` lines 419-436 and 440-449): merged iterators for
`Seq16 × Seq16`, the range merge for `Rle16 × Rle16`, else clone +
in-place. -/
def Block.inter (a b : Block) : Option Block :=
  match a, b with
  | .seq16 s1, .seq16 s2 => some (collectBlock (pairInter s1.vector s2.vector))
  | .rle16 r1, .rle16 r2 => some (.rle16 (rleInter r1 r2))
  | _, _ => a.interWith b

/-- Allocating union of two borrowed blocks (see `Block.inter`). -/
def Block.union (a b : Block) : Option Block :=
  match a, b with
  | .seq16 s1, .seq16 s2 => some (collectBlock (unionMerge s1.vector s2.vector))
  | .rle16 r1, .rle16 r2 => some (.rle16 (rleUnion r1 r2))
  | _, _ => a.unionWith b

/-- Allocating difference of two borrowed blocks (see `Block.inter`). -/
def Block.diff (a b : Block) : Option Block :=
  match a, b with
  | .seq16 s1, .seq16 s2 => some (collectBlock (pairDiff s1.vector s2.vector))
  | .rle16 r1, .rle16 r2 => some (.rle16 (rleDiff r1 r2))
  | _, _ => a.diffWith b

/-- Allocating symmetric difference of two borrowed blocks (see
`Block.inter`). -/
def Block.symmDiff (a b : Block) : Option Block :=
  match a, b with
  | .seq16 s1, .seq16 s2 => some (collectBlock (xorMerge s1.vector s2.vector))
  | .rle16 r1, .rle16 r2 => some (.rle16 (rleXor r1 r2))
  | _, _ => a.symmDiffWith b

/-! ### Counting helpers -/

theorem countP_or_disjoint (p q : Nat → Bool) (l : List Nat)
    (h : ∀ x ∈ l, ¬(p x = true ∧ q x = true)) :
    l.countP (fun x => p x || q x) = l.countP p + l.countP q := by
  induction l with
  | nil => simp
  | cons a l ih =>
    have ha := h a (List.mem_cons_self a l)
    have ih' := ih (fun x hx => h x (List.mem_cons_of_mem a hx))
    simp only [List.countP_cons, ih']
    by_cases hp : p a <;> by_cases hq : q a <;> simp [hp, hq] at ha ⊢ <;> omega

theorem countP_range_eqb (i a : Nat) :
    (List.range i).countP (fun x => x == a) = if a < i then 1 else 0 := by
  change (List.range i).count a = _
  by_cases h : a < i
  · rw [if_pos h]
    exact List.count_eq_one_of_mem (List.nodup_range i) (List.mem_range.mpr h)
  · rw [if_neg h, List.count_eq_zero]
    simpa using h

theorem countP_range_mem (i : Nat) (l : List Nat) (hnd : l.Nodup) :
    (List.range i).countP (fun y => l.contains y) =
      l.countP (fun y => decide (y < i)) := by
  induction l with
  | nil => simp
  | cons a t ih =>
    have hnd' := hnd
    rw [List.nodup_cons] at hnd'
    have h1 : (List.range i).countP (fun y => (a :: t).contains y) =
        (List.range i).countP (fun y => (y == a) || t.contains y) := by
      apply List.countP_congr
      intro x _
      simp [List.contains_cons]
    rw [h1, countP_or_disjoint]
    · rw [countP_range_eqb, List.countP_cons, ih hnd'.2]
      by_cases h : a < i <;> simp [h] <;> omega
    · intro x _ hx
      have : x = a := by simpa using hx.1
      subst this
      exact hnd'.1 (by simpa using hx.2)

theorem sorted_countP_lt_get (l : List Nat) (hs : l.Pairwise (· < ·)) :
    ∀ k p : Nat, l.get? k = some p →
      l.countP (fun y => decide (y < p)) = k := by
  induction l with
  | nil => intro k p h; simp at h
  | cons a t ih =>
    have hs' := List.pairwise_cons.mp hs
    intro k p h
    cases k with
    | zero =>
      have : a = p := by simpa using h
      subst this
      rw [List.countP_cons]
      have h0 : t.countP (fun y => decide (y < a)) = 0 := by
        apply List.countP_eq_zero.mpr
        intro y hy
        simp [Nat.not_lt.mpr (Nat.le_of_lt (hs'.1 y hy))]
      simp [h0]
    | succ k =>
      have hk : t.get? k = some p := by simpa using h
      have hp : p ∈ t := List.get?_mem hk
      rw [List.countP_cons, ih hs'.2 k p hk]
      simp [hs'.1 p hp]

theorem sorted_nodup (l : List Nat) (hs : l.Pairwise (· < ·)) : l.Nodup :=
  hs.imp Nat.ne_of_lt

theorem sorted_ext (l1 l2 : List Nat) (h1 : l1.Pairwise (· < ·))
    (h2 : l2.Pairwise (· < ·)) (h : ∀ x, x ∈ l1 ↔ x ∈ l2) : l1 = l2 := by
  have : IsAntisymm Nat (· < ·) :=
    ⟨fun a b h h' => absurd (Nat.lt_trans h h') (Nat.lt_irrefl a)⟩
  exact List.eq_of_perm_of_sorted
    ((List.perm_ext_iff_of_nodup (sorted_nodup l1 h1) (sorted_nodup l2 h2)).mpr h)
    h1 h2

theorem map_sum_set (f : Nat → Nat) (l : List Nat) (i x : Nat) (hi : i < l.length) :
    ((l.set i x).map f).sum + f (l.getD i 0) = (l.map f).sum + f x := by
  induction l generalizing i with
  | nil => simp at hi
  | cons a t ih =>
    cases i with
    | zero => simp [List.set_cons_zero, List.getD_cons_zero]; omega
    | succ i =>
      have hi' : i < t.length := by simpa using hi
      have := ih i hi'
      simp only [List.set, List.map_cons, List.sum_cons, List.getD_cons_succ]
      omega

/-! ### Machine-word bit lemmas -/

theorem testBit_setBit (w r j : Nat) :
    (w ||| 1 <<< r).testBit j = (w.testBit j || decide (r = j)) := by
  rw [Nat.testBit_or, Nat.one_shiftLeft, Nat.testBit_two_pow]

theorem testBit_clearBit (w r j : Nat) :
    (Nat.ldiff w (1 <<< r)).testBit j = (w.testBit j && !(decide (r = j))) := by
  rw [Nat.testBit_ldiff, Nat.one_shiftLeft, Nat.testBit_two_pow]

theorem pop_setBit (w r : Nat) (hr : r < 64) (hw : w.testBit r = false) :
    pop (w ||| 1 <<< r) = pop w + 1 := by
  unfold pop popBelow
  have h1 : (List.range 64).countP (fun j => (w ||| 1 <<< r).testBit j) =
      (List.range 64).countP (fun j => w.testBit j || (j == r)) := by
    apply List.countP_congr
    intro x _
    rw [testBit_setBit]
    by_cases hrx : r = x
    · subst hrx; simp
    · simp [hrx, Ne.symm hrx]
  rw [h1, countP_or_disjoint, countP_range_eqb, if_pos hr]
  intro x _ hx
  have : x = r := by simpa using hx.2
  subst this
  rw [hw] at hx
  exact Bool.false_ne_true hx.1

theorem pop_clearBit (w r : Nat) (hr : r < 64) (hw : w.testBit r = true) :
    pop (Nat.ldiff w (1 <<< r)) + 1 = pop w := by
  unfold pop popBelow
  have h1 : (List.range 64).countP (fun j => w.testBit j) =
      (List.range 64).countP
        (fun j => (Nat.ldiff w (1 <<< r)).testBit j || (j == r)) := by
    apply List.countP_congr
    intro x _
    rw [testBit_clearBit]
    by_cases hx : x = r
    · subst hx; simp [hw]
    · simp [hx, Ne.symm hx]
  rw [h1, countP_or_disjoint, countP_range_eqb, if_pos hr]
  intro x _ hx
  have : x = r := by simpa using hx.2
  subst this
  rw [testBit_clearBit] at hx
  simp at hx

/-! ### `wordBits` -/

theorem mem_wordBits (w j : Nat) : j ∈ wordBits w ↔ j < 64 ∧ w.testBit j = true := by
  simp [wordBits, List.mem_filter, List.mem_range]

theorem wordBits_sorted (w : Nat) : (wordBits w).Pairwise (· < ·) :=
  (List.pairwise_lt_range 64).filter _

theorem length_wordBits (w : Nat) : (wordBits w).length = pop w :=
  (List.countP_eq_length_filter _ _).symm

/-! ### Element lists of a `Seq64` -/

theorem seq64BitsFrom_mem (ws : List Nat) : ∀ k x : Nat,
    x ∈ seq64BitsFrom k ws ↔
      64 * k ≤ x ∧ x < 64 * (k + ws.length) ∧
        Nat.testBit (ws.getD (x / 64 - k) 0) (x % 64) = true := by
  induction ws with
  | nil =>
    intro k x
    simp only [seq64BitsFrom, List.enumFrom_nil, List.flatMap_nil,
      List.not_mem_nil, false_iff, List.length_nil, List.getD_nil]
    intro h
    omega
  | cons w ws ih =>
    intro k x
    rw [seq64BitsFrom, List.enumFrom_cons, List.flatMap_cons, List.mem_append]
    constructor
    · rintro (hx | hx)
      · rcases List.mem_map.mp hx with ⟨j, hj, rfl⟩
        rcases (mem_wordBits w j).mp hj with ⟨hj64, hbit⟩
        refine ⟨by omega, by simp only [List.length_cons]; omega, ?_⟩
        have hidx : (64 * k + j) / 64 - k = 0 := by omega
        have hmod : (64 * k + j) % 64 = j := by omega
        rw [hidx, hmod, List.getD_cons_zero]
        exact hbit
      · have hx' := (ih (k + 1) x).mp hx
        refine ⟨by omega, by simp only [List.length_cons]; omega, ?_⟩
        have hidx : x / 64 - k = (x / 64 - (k + 1)) + 1 := by omega
        rw [hidx, List.getD_cons_succ]
        exact hx'.2.2
    · rintro ⟨h1, h2, h3⟩
      by_cases hx : x < 64 * (k + 1)
      · left
        have hidx : x / 64 - k = 0 := by omega
        rw [hidx, List.getD_cons_zero] at h3
        refine List.mem_map.mpr ⟨x % 64, (mem_wordBits w (x % 64)).mpr ⟨by omega, h3⟩, ?_⟩
        omega
      · right
        refine (ih (k + 1) x).mpr ⟨by omega, by simp only [List.length_cons] at h2; omega, ?_⟩
        have hidx : x / 64 - k = (x / 64 - (k + 1)) + 1 := by omega
        rw [hidx, List.getD_cons_succ] at h3
        exact h3

theorem seq64BitsFrom_sorted (ws : List Nat) : ∀ k : Nat,
    (seq64BitsFrom k ws).Pairwise (· < ·) := by
  induction ws with
  | nil => intro k; simp [seq64BitsFrom]
  | cons w ws ih =>
    intro k
    rw [seq64BitsFrom, List.enumFrom_cons, List.flatMap_cons]
    apply List.pairwise_append.mpr
    refine ⟨?_, ih (k + 1), ?_⟩
    · exact (wordBits_sorted w).map _ (fun a b hab => by omega)
    · intro a ha b hb
      rcases List.mem_map.mp ha with ⟨j, hj, rfl⟩
      have hj64 := ((mem_wordBits w j).mp hj).1
      have hb' := ((seq64BitsFrom_mem ws (k + 1) b).mp hb).1
      omega

theorem seq64BitsFrom_length (ws : List Nat) : ∀ k : Nat,
    (seq64BitsFrom k ws).length = (ws.map pop).sum := by
  induction ws with
  | nil => intro k; simp [seq64BitsFrom]
  | cons w ws ih =>
    intro k
    rw [seq64BitsFrom, List.enumFrom_cons, List.flatMap_cons, List.length_append]
    rw [List.length_map, length_wordBits]
    rw [show ((List.enumFrom (k + 1) ws).flatMap
      (fun p => (wordBits p.2).map (fun j => 64 * p.1 + j))) = seq64BitsFrom (k + 1) ws from rfl]
    rw [ih (k + 1)]
    simp

theorem seq64Contains_out (s : Seq) (x : Nat) (h : s.vector.length ≤ x / 64) :
    seq64Contains s x = false := by
  unfold seq64Contains
  rw [List.getD_eq_default _ _ h]
  exact Nat.zero_testBit (x % 64)

theorem seq64ToList_mem (s : Seq) (hv : s.vector.length = 1024) (x : Nat) :
    x ∈ seq64ToList s ↔ seq64Contains s x = true := by
  rw [seq64ToList, seq64BitsFrom_mem]
  by_cases hx : x < 65536
  · unfold seq64Contains
    rw [hv]
    simp only [Nat.zero_add, Nat.mul_zero, Nat.zero_le, true_and, Nat.sub_zero]
    constructor
    · exact fun h => h.2
    · exact fun h => ⟨by omega, h⟩
  · rw [seq64Contains_out s x (by omega)]
    rw [hv]
    simp only [Nat.mul_zero, Nat.zero_le, true_and, Nat.zero_add]
    constructor
    · intro h; omega
    · intro h; exact absurd h (by simp)

theorem seq64ToList_bounded (s : Seq) (hv : s.vector.length = 1024) :
    ∀ x ∈ seq64ToList s, x < 65536 := by
  intro x hx
  have := ((seq64BitsFrom_mem s.vector 0 x).mp hx).2.1
  rw [hv] at this
  omega

theorem seq64ToList_sorted (s : Seq) : (seq64ToList s).Pairwise (· < ·) :=
  seq64BitsFrom_sorted s.vector 0

theorem seq64ToList_length (s : Seq) :
    (seq64ToList s).length = (s.vector.map pop).sum :=
  seq64BitsFrom_length s.vector 0

/-! ### Element lists of an `Rle16` -/

theorem mem_expandRuns (rs : List (Nat × Nat)) (x : Nat) :
    x ∈ expandRuns rs ↔ ∃ p ∈ rs, p.1 ≤ x ∧ x ≤ p.2 := by
  rw [expandRuns, List.mem_flatMap]
  constructor
  · rintro ⟨p, hp, hx⟩
    have := List.mem_range'_1.mp hx
    exact ⟨p, hp, by omega⟩
  · rintro ⟨p, hp, hx⟩
    exact ⟨p, hp, List.mem_range'_1.mpr (by omega)⟩

theorem rle16Contains_iff_mem (r : Rle) (x : Nat) :
    rle16Contains r x = true ↔ x ∈ rle16ToList r := by
  rw [rle16ToList, mem_expandRuns, rle16Contains, List.any_eq_true]
  constructor
  · rintro ⟨p, hp, hx⟩
    simp only [Bool.and_eq_true, decide_eq_true_eq] at hx
    exact ⟨p, hp, hx⟩
  · rintro ⟨p, hp, hx⟩
    exact ⟨p, hp, by simp only [Bool.and_eq_true, decide_eq_true_eq]; exact hx⟩

theorem expandRuns_sorted (rs : List (Nat × Nat))
    (hg : rs.Pairwise (fun p q => p.2 + 1 < q.1)) :
    (expandRuns rs).Pairwise (· < ·) := by
  induction rs with
  | nil => simp [expandRuns]
  | cons p ps ih =>
    have hg' := List.pairwise_cons.mp hg
    rw [expandRuns, List.flatMap_cons]
    apply List.pairwise_append.mpr
    refine ⟨List.pairwise_lt_range' _ _, ih hg'.2, ?_⟩
    intro a ha b hb
    have ha' := List.mem_range'_1.mp ha
    rcases (mem_expandRuns ps b).mp hb with ⟨q, hq, hbq⟩
    have := hg'.1 q hq
    omega

theorem expandRuns_length (rs : List (Nat × Nat)) (h : ∀ p ∈ rs, p.1 ≤ p.2) :
    (expandRuns rs).length = (rs.map rangeLen).sum := by
  induction rs with
  | nil => simp [expandRuns]
  | cons p ps ih =>
    rw [expandRuns, List.flatMap_cons, List.length_append]
    have hp := h p (List.mem_cons_self p ps)
    have ih' := ih (fun q hq => h q (List.mem_cons_of_mem p hq))
    rw [expandRuns] at ih'
    rw [ih']
    simp only [List.map_cons, List.sum_cons, List.length_range']
    unfold rangeLen
    omega

theorem rle16ToList_sorted (r : Rle) (hv : RleValid r) :
    (rle16ToList r).Pairwise (· < ·) :=
  expandRuns_sorted r.ranges hv.1

theorem rle16ToList_bounded (r : Rle) (hv : RleValid r) :
    ∀ x ∈ rle16ToList r, x < 65536 := by
  intro x hx
  rcases (mem_expandRuns r.ranges x).mp hx with ⟨p, hp, hxp⟩
  have := (hv.2.1 p hp).2
  omega

theorem rle16ToList_length (r : Rle) (hv : RleValid r) :
    (rle16ToList r).length = r.weight := by
  rw [rle16ToList, expandRuns_length r.ranges (fun p hp => (hv.2.1 p hp).1), hv.2.2]
  congr 1
  apply List.map_congr_left
  intro p hp
  have := (hv.2.1 p hp).1
  unfold rangeLen
  omega

/-! ### The abstract element list of a block -/

theorem toList_sorted (b : Block) (hv : b.Valid) : b.toList.Pairwise (· < ·) := by
  cases b with
  | seq16 s => exact hv.1
  | seq64 s => exact seq64ToList_sorted s
  | rle16 r => exact rle16ToList_sorted r hv

theorem toList_bounded (b : Block) (hv : b.Valid) : ∀ x ∈ b.toList, x < 65536 := by
  cases b with
  | seq16 s => exact hv.2.1
  | seq64 s => exact seq64ToList_bounded s hv.1
  | rle16 r => exact rle16ToList_bounded r hv

theorem contains_iff_mem (b : Block) (hv : b.Valid) (x : Nat) :
    b.contains x = true ↔ x ∈ b.toList := by
  cases b with
  | seq16 s =>
    show seq16Contains s x = true ↔ x ∈ s.vector
    rw [seq16Contains]
    simp
  | seq64 s => exact (seq64ToList_mem s hv.1 x).symm
  | rle16 r => exact rle16Contains_iff_mem r x

theorem count1_eq_length (b : Block) (hv : b.Valid) :
    b.count1 = b.toList.length := by
  cases b with
  | seq16 s => exact hv.2.2
  | seq64 s =>
    show s.weight = (seq64ToList s).length
    rw [seq64ToList_length]
    exact hv.2
  | rle16 r =>
    show r.weight = (rle16ToList r).length
    rw [rle16ToList_length r hv]

theorem contains_out (b : Block) (hv : b.Valid) (x : Nat) (hx : 65536 ≤ x) :
    b.contains x = false := by
  by_cases h : b.contains x = true
  · have := toList_bounded b hv x ((contains_iff_mem b hv x).mp h)
    omega
  · simpa using h

/-! ### `rank1` agrees with counting, per representation -/

theorem pop_zero : pop 0 = 0 := by
  unfold pop popBelow
  apply List.countP_eq_zero.mpr
  intro j _
  simp [Nat.zero_testBit]

theorem findIdx_le_eq_countP (i : Nat) : ∀ l : List Nat, l.Pairwise (· < ·) →
    l.findIdx (fun v => decide (i ≤ v)) = l.countP (fun y => decide (y < i)) := by
  intro l
  induction l with
  | nil => intro _; simp
  | cons a t ih =>
    intro hs
    have hs' := List.pairwise_cons.mp hs
    rw [List.findIdx_cons, List.countP_cons]
    by_cases h : i ≤ a
    · have h0 : t.countP (fun y => decide (y < i)) = 0 := by
        apply List.countP_eq_zero.mpr
        intro y hy
        have := hs'.1 y hy
        simp
        omega
      simp [h, h0, Nat.not_lt.mpr h]
    · rw [ih hs'.2]
      simp [h, Nat.lt_of_not_le h]

theorem take_map_pop_succ (ws : List Nat) (q : Nat) :
    ((ws.take (q + 1)).map pop).sum =
      ((ws.take q).map pop).sum + pop (ws.getD q 0) := by
  rw [List.take_succ, List.map_append, List.sum_append]
  congr 1
  by_cases h : q < ws.length
  · rw [List.getD_eq_getElem _ _ h]
    rw [List.getElem?_eq_getElem h]
    simp
  · have h' : ws.length ≤ q := Nat.le_of_not_lt h
    rw [List.getD_eq_default _ _ h']
    rw [List.getElem?_eq_none h']
    simp [pop_zero]

theorem countBits_mul64 (ws : List Nat) : ∀ q : Nat,
    (List.range (64 * q)).countP
        (fun y => Nat.testBit (ws.getD (y / 64) 0) (y % 64)) =
      ((ws.take q).map pop).sum := by
  intro q
  induction q with
  | zero => simp
  | succ q ih =>
    have hsplit : 64 * (q + 1) = 64 * q + 64 := by omega
    rw [hsplit, List.range_add, List.countP_append, ih, List.countP_map]
    rw [take_map_pop_succ]
    congr 1
    have : ∀ j ∈ List.range 64,
        (Nat.testBit (ws.getD ((64 * q + j) / 64) 0) ((64 * q + j) % 64)) =
          Nat.testBit (ws.getD q 0) j := by
      intro j hj
      have hj' := List.mem_range.mp hj
      have h1 : (64 * q + j) / 64 = q := by omega
      have h2 : (64 * q + j) % 64 = j := by omega
      rw [h1, h2]
    rw [List.countP_congr (fun j hj => by simp only [Function.comp]; rw [this j hj])]
    rfl

theorem seq64_rank_eq (ws : List Nat) (i : Nat) :
    ((ws.take (i / 64)).map pop).sum + popBelow (ws.getD (i / 64) 0) (i % 64) =
      (List.range i).countP (fun y => Nat.testBit (ws.getD (y / 64) 0) (y % 64)) := by
  have hsplit : i = 64 * (i / 64) + i % 64 := by omega
  conv_rhs => rw [hsplit]
  rw [List.range_add, List.countP_append, countBits_mul64, List.countP_map]
  congr 1
  unfold popBelow
  apply List.countP_congr
  intro j hj
  have hj' := List.mem_range.mp hj
  have h1 : (64 * (i / 64) + j) / 64 = i / 64 := by omega
  have h2 : (64 * (i / 64) + j) % 64 = j := by omega
  simp only [Function.comp]
  rw [h1, h2]

theorem count_in_range (lo hi i : Nat) :
    (List.range i).countP (fun y => decide (lo ≤ y) && decide (y ≤ hi)) =
      min i (hi + 1) - min i lo := by
  induction i with
  | zero => simp
  | succ i ih =>
    rw [List.range_succ, List.countP_append, ih]
    simp only [List.countP_cons, List.countP_nil]
    by_cases h1 : lo ≤ i
    · by_cases h2 : i ≤ hi
      · simp [h1, h2]; omega
      · simp [h1, h2]; omega
    · have h2 : ¬(decide (lo ≤ i) && decide (i ≤ hi)) = true := by simp [h1]
      simp only [Nat.zero_add, if_neg h2]
      omega

theorem minTerm_zero (i : Nat) (rs : List (Nat × Nat)) (h : ∀ p ∈ rs, i ≤ p.1) :
    (rs.map (fun p => min i (p.2 + 1) - min i p.1)).sum = 0 := by
  induction rs with
  | nil => simp
  | cons p ps ih =>
    have hp := h p (List.mem_cons_self p ps)
    rw [List.map_cons, List.sum_cons, ih (fun q hq => h q (List.mem_cons_of_mem p hq))]
    omega

theorem rle_count_eq (i : Nat) : ∀ rs : List (Nat × Nat),
    rs.Pairwise (fun p q => p.2 + 1 < q.1) →
    (List.range i).countP (fun y => rs.any (fun p => p.1 ≤ y && y ≤ p.2)) =
      (rs.map (fun p => min i (p.2 + 1) - min i p.1)).sum := by
  intro rs
  induction rs with
  | nil => simp
  | cons p ps ih =>
    intro hg
    have hg' := List.pairwise_cons.mp hg
    have hsplit : (List.range i).countP (fun y => (p :: ps).any (fun q => q.1 ≤ y && y ≤ q.2)) =
        (List.range i).countP
          (fun y => (decide (p.1 ≤ y) && decide (y ≤ p.2)) ||
            ps.any (fun q => q.1 ≤ y && y ≤ q.2)) := by
      apply List.countP_congr
      intro x _
      simp [List.any_cons]
    have hdisj : ∀ x ∈ List.range i,
        ¬((decide (p.1 ≤ x) && decide (x ≤ p.2)) = true ∧
          (ps.any fun q => q.1 ≤ x && x ≤ q.2) = true) := by
      rintro x _ ⟨h1, h2⟩
      simp only [Bool.and_eq_true, decide_eq_true_eq] at h1
      rcases List.any_eq_true.mp h2 with ⟨q, hq, hxq⟩
      simp only [Bool.and_eq_true, decide_eq_true_eq] at hxq
      have := hg'.1 q hq
      omega
    rw [hsplit, countP_or_disjoint _ _ _ hdisj, count_in_range, ih hg'.2]
    simp

theorem rleSearch_inl_sum (i : Nat) : ∀ (rs : List (Nat × Nat)) (n : Nat),
    rs.Pairwise (fun p q => p.2 + 1 < q.1) → (∀ p ∈ rs, p.1 ≤ p.2) →
    rleSearch rs i = .inl n →
    ((rs.take n).map rangeLen).sum =
      (rs.map (fun p => min i (p.2 + 1) - min i p.1)).sum := by
  intro rs
  induction rs with
  | nil => intro n _ _ _; simp
  | cons p ps ih =>
    intro n hg hle h
    have hg' := List.pairwise_cons.mp hg
    have hp := hle p (List.mem_cons_self p ps)
    simp only [rleSearch] at h
    by_cases h1 : i < p.1
    · rw [if_pos h1] at h
      injection h with hn
      subst hn
      rw [minTerm_zero]
      · simp
      · intro q hq
        rcases List.mem_cons.mp hq with hq | hq
        · subst hq; omega
        · have := hg'.1 q hq
          omega
    · by_cases h2 : i ≤ p.2
      · rw [if_neg h1, if_pos h2] at h
        simp at h
      · rw [if_neg h1, if_neg h2] at h
        cases hrec : rleSearch ps i with
        | inl m =>
          rw [hrec] at h
          simp only [] at h
          injection h with hn
          subst hn
          rw [List.take_succ_cons, List.map_cons, List.sum_cons,
            ih m hg'.2 (fun q hq => hle q (List.mem_cons_of_mem p hq)) hrec,
            List.map_cons, List.sum_cons]
          have hterm : min i (p.2 + 1) - min i p.1 = rangeLen p := by
            unfold rangeLen
            omega
          omega
        | inr m =>
          rw [hrec] at h
          simp at h

theorem rleSearch_inr_sum (i : Nat) : ∀ (rs : List (Nat × Nat)) (n : Nat),
    rs.Pairwise (fun p q => p.2 + 1 < q.1) → (∀ p ∈ rs, p.1 ≤ p.2) →
    rleSearch rs i = .inr n →
    i - (rs.getD n (0, 0)).1 + ((rs.take n).map rangeLen).sum =
      (rs.map (fun p => min i (p.2 + 1) - min i p.1)).sum := by
  intro rs
  induction rs with
  | nil => intro n _ _ h; simp [rleSearch] at h
  | cons p ps ih =>
    intro n hg hle h
    have hg' := List.pairwise_cons.mp hg
    have hp := hle p (List.mem_cons_self p ps)
    simp only [rleSearch] at h
    by_cases h1 : i < p.1
    · rw [if_pos h1] at h
      simp at h
    · by_cases h2 : i ≤ p.2
      · rw [if_neg h1, if_pos h2] at h
        injection h with hn
        subst hn
        simp only [List.take_zero, List.map_nil, List.sum_nil, List.map_cons,
          List.sum_cons, List.getD_cons_zero]
        rw [minTerm_zero i ps (fun q hq => by have := hg'.1 q hq; omega)]
        omega
      · rw [if_neg h1, if_neg h2] at h
        cases hrec : rleSearch ps i with
        | inl m =>
          rw [hrec] at h
          simp at h
        | inr m =>
          rw [hrec] at h
          simp only [] at h
          injection h with hn
          subst hn
          rw [List.take_succ_cons, List.map_cons, List.sum_cons, List.getD_cons_succ,
            List.map_cons, List.sum_cons]
          have hterm : min i (p.2 + 1) - min i p.1 = rangeLen p := by
            unfold rangeLen
            omega
          have := ih m hg'.2 (fun q hq => hle q (List.mem_cons_of_mem p hq)) hrec
          omega

/-- `rank1` on every representation counts the set elements strictly below
`i` (the `[0, i)` convention of the block layer). -/
theorem rank1_eq_count (b : Block) (hv : b.Valid) (i : Nat) (hi : i < 65536) :
    b.rank1 i = (List.range i).countP (fun y => b.contains y) := by
  cases b with
  | seq16 s =>
    show s.vector.findIdx (fun v => decide (i ≤ v)) = _
    rw [findIdx_le_eq_countP i s.vector hv.1,
      ← countP_range_mem i s.vector (sorted_nodup _ hv.1)]
    apply List.countP_congr
    intro x _
    rfl
  | seq64 s =>
    show ((s.vector.take (i / 64)).map pop).sum +
        popBelow (s.vector.getD (i / 64) 0) (i % 64) = _
    rw [seq64_rank_eq]
    apply List.countP_congr
    intro x _
    rfl
  | rle16 r =>
    have hg := hv.1
    have hle : ∀ p ∈ r.ranges, p.1 ≤ p.2 := fun p hp => (hv.2.1 p hp).1
    have hcount : (List.range i).countP (fun y => (Block.rle16 r).contains y) =
        (r.ranges.map (fun p => min i (p.2 + 1) - min i p.1)).sum := by
      rw [← rle_count_eq i r.ranges hg]
      apply List.countP_congr
      intro x _
      rfl
    rw [hcount]
    show (match rleSearch r.ranges i with
      | .inl n =>
          if r.ranges.length ≤ n then r.weight % 65536
          else ((r.ranges.take n).map rangeLen).sum
      | .inr n => i - (r.ranges.getD n (0, 0)).1 +
          ((r.ranges.take n).map rangeLen).sum) = _
    cases hsearch : rleSearch r.ranges i with
    | inl n =>
      have hsum := rleSearch_inl_sum i r.ranges n hg hle hsearch
      by_cases hov : r.ranges.length ≤ n
      · simp only [if_pos hov]
        rw [List.take_of_length_le hov] at hsum
        have hwr : r.weight = (r.ranges.map rangeLen).sum := by
          rw [hv.2.2]
          congr 1
          apply List.map_congr_left
          intro p hp
          have := hle p hp
          unfold rangeLen
          omega
        have hle65536 : (r.ranges.map (fun p => min i (p.2 + 1) - min i p.1)).sum < 65536 := by
          rw [← rle_count_eq i r.ranges hg]
          have := List.countP_le_length
            (l := List.range i) (p := fun y => r.ranges.any (fun p => p.1 ≤ y && y ≤ p.2))
          rw [List.length_range] at this
          omega
        rw [hwr, hsum]
        exact Nat.mod_eq_of_lt hle65536
      · simp only [if_neg hov]
        exact hsum
    | inr n => exact rleSearch_inr_sum i r.ranges n hg hle hsearch

/-! ### `select1` returns the `k`-th element of the ascending list -/

theorem wordBits_zero : wordBits 0 = [] := by
  simp [wordBits, Nat.zero_testBit]

theorem sel64Go_eq (ps : List (Nat × Nat)) : ∀ c : Nat,
    sel64Go (ps.filter (fun p => p.2 != 0)) c =
      (ps.flatMap (fun p => (wordBits p.2).map (fun j => 64 * p.1 + j))).get? c := by
  induction ps with
  | nil => intro c; simp [sel64Go]
  | cons p ps ih =>
    intro c
    by_cases hw : p.2 = 0
    · rw [List.filter_cons, List.flatMap_cons]
      simp only [hw, bne_self_eq_false, if_neg Bool.false_ne_true, wordBits_zero,
        List.map_nil, List.nil_append]
      exact ih c
    · rw [List.filter_cons, List.flatMap_cons]
      have hw' : (p.2 != 0) = true := by simpa using hw
      rw [if_pos hw']
      show sel64Go (p :: ps.filter (fun p => p.2 != 0)) c = _
      rw [sel64Go]
      by_cases hc : c < pop p.2
      · rw [if_pos hc]
        have hlen : c < ((wordBits p.2).map (fun j => 64 * p.1 + j)).length := by
          rw [List.length_map, length_wordBits]
          exact hc
        rw [List.get?_append hlen, List.get?_map]
        have hc' : c < (wordBits p.2).length := by rw [length_wordBits]; exact hc
        rcases List.get?_eq_get hc' with h
        rw [wordSelect1, h]
        simp
      · rw [if_neg hc]
        have hlen : ((wordBits p.2).map (fun j => 64 * p.1 + j)).length ≤ c := by
          rw [List.length_map, length_wordBits]
          omega
        rw [List.get?_append_right hlen, ih (c - pop p.2)]
        congr 1
        rw [List.length_map, length_wordBits]

theorem rleSelGo_eq : ∀ (rs : List (Nat × Nat)) (curr c : Nat),
    rs.Pairwise (fun p q => p.2 + 1 < q.1) → (∀ p ∈ rs, p.1 ≤ p.2) →
    (∀ p ∈ rs, curr ≤ p.1) → curr ≤ c →
    rleSelGo rs curr c = (expandRuns rs).get? (c - curr) := by
  intro rs
  induction rs with
  | nil => intro curr c _ _ _ _; simp [rleSelGo, expandRuns]
  | cons p ps ih =>
    intro curr c hg hle hcurr hc
    have hg' := List.pairwise_cons.mp hg
    have hp := hle p (List.mem_cons_self p ps)
    have hpc := hcurr p (List.mem_cons_self p ps)
    rw [rleSelGo, expandRuns, List.flatMap_cons]
    have hlen : (List.range' p.1 (p.2 + 1 - p.1)).length = p.2 + 1 - p.1 := by
      simp
    by_cases hcn : c < curr + (p.2 - p.1 + 1)
    · rw [if_pos hcn]
      have hidx : c - curr < p.2 + 1 - p.1 := by omega
      rw [List.get?_append (by rw [hlen]; exact hidx)]
      rw [List.get?_range' _ _ hidx]
      congr 1
      omega
    · rw [if_neg hcn]
      have hnext : ∀ q ∈ ps, curr + (p.2 - p.1 + 1) ≤ q.1 := by
        intro q hq
        have := hg'.1 q hq
        omega
      rw [ih (curr + (p.2 - p.1 + 1)) c hg'.2
        (fun q hq => hle q (List.mem_cons_of_mem p hq)) hnext (by omega)]
      rw [List.get?_append_right (by rw [hlen]; omega)]
      rw [expandRuns]
      congr 1
      rw [hlen]
      omega

/-- `select1` is exactly the `c`-th entry of the ascending element list,
behind the weight guard. -/
theorem select1_eq_get (b : Block) (hv : b.Valid) (c : Nat) :
    b.select1 c = if b.count1 ≤ c then none else b.toList.get? c := by
  by_cases hguard : b.count1 ≤ c
  · rw [if_pos hguard]
    unfold Block.select1
    rw [if_pos hguard]
  · rw [if_neg hguard]
    unfold Block.select1
    rw [if_neg hguard]
    cases b with
    | seq16 s => rfl
    | seq64 s =>
      show sel64Go (s.vector.enum.filter (fun p => p.2 != 0)) c = _
      rw [sel64Go_eq]
      rfl
    | rle16 r =>
      show rleSelGo r.ranges 0 c = _
      rw [rleSelGo_eq r.ranges 0 c hv.1 (fun p hp => (hv.2.1 p hp).1)
        (fun p _ => Nat.zero_le p.1) (Nat.zero_le c)]
      rfl

/-! ### Runs: building an `Rle16` from a sorted list and back -/

theorem runsAux_expand : ∀ (l : List Nat) (lo hi : Nat),
    (hi :: l).Pairwise (· < ·) → lo ≤ hi →
    expandRuns (runsAux lo hi l) = List.range' lo (hi + 1 - lo) ++ l := by
  intro l
  induction l with
  | nil =>
    intro lo hi _ _
    simp [runsAux, expandRuns]
  | cons y ys ih =>
    intro lo hi hs hlo
    have hs' := List.pairwise_cons.mp hs
    have hy : hi < y := hs'.1 y (List.mem_cons_self y ys)
    rw [runsAux]
    by_cases hadj : y = hi + 1
    · rw [if_pos hadj]
      have hs2 : (y :: ys).Pairwise (· < ·) := hs'.2
      rw [ih lo y (by rw [hadj] at hs2 ⊢; exact hs2) (by omega)]
      subst hadj
      have hr : List.range' lo (hi + 1 + 1 - lo) =
          List.range' lo (hi + 1 - lo) ++ [hi + 1] := by
        have h1 : hi + 1 + 1 - lo = (hi + 1 - lo) + 1 := by omega
        rw [h1, List.range'_1_concat]
        congr 2
        omega
      rw [hr, List.append_assoc]
      rfl
    · rw [if_neg hadj]
      rw [expandRuns, List.flatMap_cons]
      have hys : (y :: ys).Pairwise (· < ·) := hs'.2
      have := ih y y hys (Nat.le_refl y)
      rw [expandRuns] at this
      rw [this]
      have h1 : y + 1 - y = 1 := by omega
      rw [h1]
      rfl

theorem runsAux_props : ∀ (l : List Nat) (lo hi : Nat),
    (hi :: l).Pairwise (· < ·) → lo ≤ hi →
    (runsAux lo hi l).Pairwise (fun p q => p.2 + 1 < q.1) ∧
      (∀ p ∈ runsAux lo hi l, lo ≤ p.1 ∧ p.1 ≤ p.2) ∧
      (∀ p ∈ runsAux lo hi l, p.2 = hi ∨ p.2 ∈ l) := by
  intro l
  induction l with
  | nil =>
    intro lo hi _ hlo
    refine ⟨by simp [runsAux], ?_, ?_⟩
    · intro p hp
      rw [runsAux] at hp
      rcases List.mem_singleton.mp hp with rfl
      exact ⟨Nat.le_refl lo, hlo⟩
    · intro p hp
      rw [runsAux] at hp
      rcases List.mem_singleton.mp hp with rfl
      exact Or.inl rfl
  | cons y ys ih =>
    intro lo hi hs hlo
    have hs' := List.pairwise_cons.mp hs
    have hy : hi < y := hs'.1 y (List.mem_cons_self y ys)
    rw [runsAux]
    by_cases hadj : y = hi + 1
    · rw [if_pos hadj]
      have hs2 : (y :: ys).Pairwise (· < ·) := hs'.2
      have := ih lo y hs2 (by omega)
      refine ⟨this.1, this.2.1, ?_⟩
      intro p hp
      rcases this.2.2 p hp with h | h
      · exact Or.inr (h ▸ List.mem_cons_self y ys)
      · exact Or.inr (List.mem_cons_of_mem y h)
    · rw [if_neg hadj]
      have hs2 : (y :: ys).Pairwise (· < ·) := hs'.2
      have hrec := ih y y hs2 (Nat.le_refl y)
      refine ⟨?_, ?_, ?_⟩
      · apply List.pairwise_cons.mpr
        refine ⟨?_, hrec.1⟩
        intro q hq
        have := (hrec.2.1 q hq).1
        omega
      · intro p hp
        rcases List.mem_cons.mp hp with rfl | hp
        · exact ⟨Nat.le_refl lo, hlo⟩
        · have := hrec.2.1 p hp
          omega
      · intro p hp
        rcases List.mem_cons.mp hp with rfl | hp
        · exact Or.inl rfl
        · rcases hrec.2.2 p hp with h | h
          · exact Or.inr (h ▸ List.mem_cons_self y ys)
          · exact Or.inr (List.mem_cons_of_mem y h)

theorem runsOf_expand (l : List Nat) (hs : l.Pairwise (· < ·)) :
    expandRuns (runsOf l) = l := by
  cases l with
  | nil => simp [runsOf, expandRuns]
  | cons x xs =>
    rw [runsOf, runsAux_expand xs x x hs (Nat.le_refl x)]
    have h1 : x + 1 - x = 1 := by omega
    rw [h1]
    rfl

theorem rle16OfList_valid (l : List Nat) (hs : l.Pairwise (· < ·))
    (hb : ∀ x ∈ l, x < 65536) : RleValid (rle16OfList l) := by
  cases l with
  | nil =>
    refine ⟨by simp [rle16OfList, runsOf], by simp [rle16OfList, runsOf], ?_⟩
    simp [rle16OfList, runsOf]
  | cons x xs =>
    have hprops := runsAux_props xs x x hs (Nat.le_refl x)
    have hbx := hb x (List.mem_cons_self x xs)
    refine ⟨hprops.1, ?_, ?_⟩
    · intro p hp
      refine ⟨(hprops.2.1 p hp).2, ?_⟩
      rcases hprops.2.2 p hp with h | h
      · omega
      · have := hb p.2 (List.mem_cons_of_mem x h)
        omega
    · show ((runsOf (x :: xs)).map rangeLen).sum = _
      congr 1
      apply List.map_congr_left
      intro p hp
      rw [runsOf] at hp
      have := (hprops.2.1 p hp).2
      unfold rangeLen
      omega

theorem rle16OfList_toList (l : List Nat) (hs : l.Pairwise (· < ·)) :
    rle16ToList (rle16OfList l) = l :=
  runsOf_expand l hs

theorem runsAux_absorb : ∀ (k lo hi : Nat) (l : List Nat),
    runsAux lo hi (List.range' (hi + 1) k ++ l) = runsAux lo (hi + k) l := by
  intro k
  induction k with
  | zero => intro lo hi l; rfl
  | succ k ih =>
    intro lo hi l
    have h1 : List.range' (hi + 1) (k + 1) = (hi + 1) :: List.range' (hi + 2) k := rfl
    rw [h1, List.cons_append, runsAux, if_pos rfl]
    have := ih lo (hi + 1) l
    rw [show hi + 1 + k = hi + (k + 1) from by omega] at this
    rw [show (hi + 1) + 1 = hi + 2 from by omega] at this
    exact this

theorem runsOf_expand_inv : ∀ rs : List (Nat × Nat),
    rs.Pairwise (fun p q => p.2 + 1 < q.1) → (∀ p ∈ rs, p.1 ≤ p.2) →
    runsOf (expandRuns rs) = rs := by
  intro rs
  induction rs with
  | nil => intro _ _; rfl
  | cons p ps ih =>
    intro hg hle
    have hg' := List.pairwise_cons.mp hg
    have hp := hle p (List.mem_cons_self p ps)
    rw [expandRuns, List.flatMap_cons]
    have hsplit : List.range' p.1 (p.2 + 1 - p.1) =
        p.1 :: List.range' (p.1 + 1) (p.2 - p.1) := by
      have h1 : p.2 + 1 - p.1 = (p.2 - p.1) + 1 := by omega
      rw [h1]
      rfl
    rw [hsplit, List.cons_append, runsOf, runsAux_absorb]
    rw [show p.1 + (p.2 - p.1) = p.2 from by omega]
    cases ps with
    | nil =>
      show runsAux p.1 p.2 (expandRuns []) = [p]
      rw [expandRuns]
      show [(p.1, p.2)] = [p]
      simp
    | cons q qs =>
      have hq := hle q (List.mem_cons_of_mem p (List.mem_cons_self q qs))
      have hgap := hg'.1 q (List.mem_cons_self q qs)
      have hqsplit : expandRuns (q :: qs) =
          q.1 :: (List.range' (q.1 + 1) (q.2 - q.1) ++ expandRuns qs) := by
        rw [expandRuns, List.flatMap_cons]
        have h1 : q.2 + 1 - q.1 = (q.2 - q.1) + 1 := by omega
        rw [h1]
        rfl
      show runsAux p.1 p.2 (expandRuns (q :: qs)) = p :: q :: qs
      rw [hqsplit, runsAux, if_neg (by omega)]
      have hrest : runsAux q.1 q.1
          (List.range' (q.1 + 1) (q.2 - q.1) ++ expandRuns qs) = q :: qs := by
        have hih := ih hg'.2 (fun r hr => hle r (List.mem_cons_of_mem p hr))
        rw [hqsplit, runsOf] at hih
        exact hih
      rw [hrest]

/-! ### `Seq64` single-bit mutation -/

theorem getD_set_eq (l : List Nat) (i v : Nat) (h : i < l.length) :
    (l.set i v).getD i 0 = v := by
  simp [List.getD, List.getElem?_set, h]

theorem getD_set_ne (l : List Nat) (i j v : Nat) (h : i ≠ j) :
    (l.set i v).getD j 0 = l.getD j 0 := by
  simp [List.getD, List.getElem?_set, h]

theorem getD_replicate_zero (n : Nat) : ∀ i : Nat,
    (List.replicate n (0 : Nat)).getD i 0 = 0 := by
  induction n with
  | zero => intro i; rfl
  | succ n ih =>
    intro i
    cases i with
    | zero => rfl
    | succ i => exact ih i

theorem seq64New_contains (x : Nat) : seq64Contains seq64New x = false := by
  unfold seq64Contains seq64New
  rw [getD_replicate_zero]
  exact Nat.zero_testBit _

theorem seq64New_valid : SeqValid64 seq64New := by
  constructor
  · exact List.length_replicate _ _
  · show (0 : Nat) = ((List.replicate 1024 (0 : Nat)).map pop).sum
    rw [List.map_replicate, pop_zero, List.sum_replicate]
    simp

theorem seq64Insert_length (s : Seq) (b : Nat) :
    (seq64Insert s b).vector.length = s.vector.length := by
  unfold seq64Insert
  by_cases h : (s.vector.getD (b / 64) 0).testBit (b % 64)
  · rw [if_pos h]
  · rw [if_neg h]
    exact List.length_set _ _ _

theorem seq64Insert_contains (s : Seq) (hlen : s.vector.length = 1024)
    (b : Nat) (hb : b < 65536) (x : Nat) :
    seq64Contains (seq64Insert s b) x = (seq64Contains s x || decide (x = b)) := by
  unfold seq64Insert
  by_cases hbit : (s.vector.getD (b / 64) 0).testBit (b % 64)
  · rw [if_pos hbit]
    by_cases hx : x = b
    · subst hx
      have : seq64Contains s x = true := hbit
      simp [this]
    · simp [hx]
  · rw [if_neg hbit]
    show seq64Contains ⟨s.weight + 1,
      s.vector.set (b / 64) (s.vector.getD (b / 64) 0 ||| 1 <<< (b % 64))⟩ x = _
    unfold seq64Contains
    simp only
    by_cases hq : x / 64 = b / 64
    · rw [hq, getD_set_eq _ _ _ (by omega), testBit_setBit]
      by_cases hx : x = b
      · subst hx
        simp [hbit]
      · have hmod : b % 64 ≠ x % 64 := by omega
        simp [hx, hmod]
    · rw [getD_set_ne _ _ _ _ (fun h => hq h.symm)]
      have hx : x ≠ b := by omega
      simp [hx]

theorem seq64Insert_valid (s : Seq) (hv : SeqValid64 s) (b : Nat) (hb : b < 65536) :
    SeqValid64 (seq64Insert s b) := by
  unfold seq64Insert
  by_cases hbit : (s.vector.getD (b / 64) 0).testBit (b % 64)
  · rw [if_pos hbit]
    exact hv
  · rw [if_neg hbit]
    have hlen := hv.1
    have hq : b / 64 < s.vector.length := by omega
    refine ⟨by simp [List.length_set, hv.1], ?_⟩
    have hsum := map_sum_set pop s.vector (b / 64)
      (s.vector.getD (b / 64) 0 ||| 1 <<< (b % 64)) hq
    have hpop : pop (s.vector.getD (b / 64) 0 ||| 1 <<< (b % 64)) =
        pop (s.vector.getD (b / 64) 0) + 1 :=
      pop_setBit _ _ (by omega) (by simpa using hbit)
    have hw := hv.2
    simp only
    omega

theorem seq64Remove_length (s : Seq) (b : Nat) :
    (seq64Remove s b).vector.length = s.vector.length := by
  unfold seq64Remove
  by_cases h : (s.vector.getD (b / 64) 0).testBit (b % 64)
  · rw [if_pos h]
    exact List.length_set _ _ _
  · rw [if_neg h]

theorem seq64Remove_contains (s : Seq) (hlen : s.vector.length = 1024)
    (b : Nat) (hb : b < 65536) (x : Nat) :
    seq64Contains (seq64Remove s b) x = (seq64Contains s x && !(decide (x = b))) := by
  unfold seq64Remove
  by_cases hbit : (s.vector.getD (b / 64) 0).testBit (b % 64)
  · rw [if_pos hbit]
    show seq64Contains ⟨s.weight - 1,
      s.vector.set (b / 64) (Nat.ldiff (s.vector.getD (b / 64) 0) (1 <<< (b % 64)))⟩ x = _
    unfold seq64Contains
    simp only
    by_cases hq : x / 64 = b / 64
    · rw [hq, getD_set_eq _ _ _ (by omega), testBit_clearBit]
      by_cases hx : x = b
      · subst hx
        simp
      · have hmod : b % 64 ≠ x % 64 := by omega
        simp [hx, hmod]
    · rw [getD_set_ne _ _ _ _ (fun h => hq h.symm)]
      have hx : x ≠ b := by omega
      simp [hx]
  · rw [if_neg hbit]
    by_cases hx : x = b
    · subst hx
      have hfalse : seq64Contains s x = false := by
        unfold seq64Contains
        simpa using hbit
      simp [hfalse]
    · simp [hx]

theorem seq64Remove_valid (s : Seq) (hv : SeqValid64 s) (b : Nat) (hb : b < 65536) :
    SeqValid64 (seq64Remove s b) := by
  unfold seq64Remove
  by_cases hbit : (s.vector.getD (b / 64) 0).testBit (b % 64)
  · rw [if_pos hbit]
    have hlen := hv.1
    have hq : b / 64 < s.vector.length := by omega
    refine ⟨by simp [List.length_set, hv.1], ?_⟩
    have hsum := map_sum_set pop s.vector (b / 64)
      (Nat.ldiff (s.vector.getD (b / 64) 0) (1 <<< (b % 64))) hq
    have hpop : pop (Nat.ldiff (s.vector.getD (b / 64) 0) (1 <<< (b % 64))) + 1 =
        pop (s.vector.getD (b / 64) 0) :=
      pop_clearBit _ _ (by omega) hbit
    have hw := hv.2
    simp only
    omega
  · rw [if_neg hbit]
    exact hv

theorem seq64Toggle_length (s : Seq) (b : Nat) :
    (seq64Toggle s b).vector.length = s.vector.length := by
  unfold seq64Toggle
  by_cases h : seq64Contains s b
  · rw [if_pos h]
    exact seq64Remove_length s b
  · rw [if_neg h]
    exact seq64Insert_length s b

theorem seq64Toggle_contains (s : Seq) (hlen : s.vector.length = 1024)
    (b : Nat) (hb : b < 65536) (x : Nat) :
    seq64Contains (seq64Toggle s b) x =
      Bool.xor (seq64Contains s x) (decide (x = b)) := by
  unfold seq64Toggle
  by_cases hc : seq64Contains s b
  · rw [if_pos hc, seq64Remove_contains s hlen b hb x]
    by_cases hx : x = b
    · subst hx
      simp [hc]
    · simp [hx]
  · rw [if_neg hc, seq64Insert_contains s hlen b hb x]
    by_cases hx : x = b
    · subst hx
      simp only [Bool.not_eq_true] at hc
      simp [hc]
    · simp [hx]

theorem seq64Toggle_valid (s : Seq) (hv : SeqValid64 s) (b : Nat) (hb : b < 65536) :
    SeqValid64 (seq64Toggle s b) := by
  unfold seq64Toggle
  by_cases h : seq64Contains s b
  · rw [if_pos h]
    exact seq64Remove_valid s hv b hb
  · rw [if_neg h]
    exact seq64Insert_valid s hv b hb

/-! ### `Seq64` bulk mutation by folding -/

theorem foldl_seq64Insert_valid (l : List Nat) : ∀ s : Seq, SeqValid64 s →
    (∀ y ∈ l, y < 65536) → SeqValid64 (l.foldl seq64Insert s) := by
  induction l with
  | nil => intro s hv _; exact hv
  | cons y ys ih =>
    intro s hv hb
    exact ih (seq64Insert s y) (seq64Insert_valid s hv y (hb y (List.mem_cons_self y ys)))
      (fun z hz => hb z (List.mem_cons_of_mem y hz))

theorem foldl_seq64Insert_contains (l : List Nat) : ∀ s : Seq,
    s.vector.length = 1024 → (∀ y ∈ l, y < 65536) → ∀ x : Nat,
    seq64Contains (l.foldl seq64Insert s) x = (seq64Contains s x || l.contains x) := by
  induction l with
  | nil => intro s _ _ x; simp
  | cons y ys ih =>
    intro s hlen hb x
    rw [List.foldl_cons, ih (seq64Insert s y) (by rw [seq64Insert_length]; exact hlen)
      (fun z hz => hb z (List.mem_cons_of_mem y hz)) x]
    rw [seq64Insert_contains s hlen y (hb y (List.mem_cons_self y ys)) x]
    by_cases hx : x = y <;> simp [hx, Bool.or_assoc]

theorem foldl_seq64Remove_valid (l : List Nat) : ∀ s : Seq, SeqValid64 s →
    (∀ y ∈ l, y < 65536) → SeqValid64 (l.foldl seq64Remove s) := by
  induction l with
  | nil => intro s hv _; exact hv
  | cons y ys ih =>
    intro s hv hb
    exact ih (seq64Remove s y) (seq64Remove_valid s hv y (hb y (List.mem_cons_self y ys)))
      (fun z hz => hb z (List.mem_cons_of_mem y hz))

theorem foldl_seq64Remove_contains (l : List Nat) : ∀ s : Seq,
    s.vector.length = 1024 → (∀ y ∈ l, y < 65536) → ∀ x : Nat,
    seq64Contains (l.foldl seq64Remove s) x = (seq64Contains s x && !(l.contains x)) := by
  induction l with
  | nil => intro s _ _ x; simp
  | cons y ys ih =>
    intro s hlen hb x
    rw [List.foldl_cons, ih (seq64Remove s y) (by rw [seq64Remove_length]; exact hlen)
      (fun z hz => hb z (List.mem_cons_of_mem y hz)) x]
    rw [seq64Remove_contains s hlen y (hb y (List.mem_cons_self y ys)) x]
    by_cases hx : x = y <;> simp [hx, Bool.and_assoc]

theorem foldl_seq64Toggle_valid (l : List Nat) : ∀ s : Seq, SeqValid64 s →
    (∀ y ∈ l, y < 65536) → SeqValid64 (l.foldl seq64Toggle s) := by
  induction l with
  | nil => intro s hv _; exact hv
  | cons y ys ih =>
    intro s hv hb
    exact ih (seq64Toggle s y) (seq64Toggle_valid s hv y (hb y (List.mem_cons_self y ys)))
      (fun z hz => hb z (List.mem_cons_of_mem y hz))

theorem foldl_seq64Toggle_contains (l : List Nat) : ∀ s : Seq,
    s.vector.length = 1024 → (∀ y ∈ l, y < 65536) → l.Nodup → ∀ x : Nat,
    seq64Contains (l.foldl seq64Toggle s) x =
      Bool.xor (seq64Contains s x) (l.contains x) := by
  induction l with
  | nil => intro s _ _ _ x; simp
  | cons y ys ih =>
    intro s hlen hb hnd x
    have hnd' := List.nodup_cons.mp hnd
    rw [List.foldl_cons, ih (seq64Toggle s y) (by rw [seq64Toggle_length]; exact hlen)
      (fun z hz => hb z (List.mem_cons_of_mem y hz)) hnd'.2 x]
    rw [seq64Toggle_contains s hlen y (hb y (List.mem_cons_self y ys)) x]
    by_cases hx : x = y
    · subst hx
      simp [hnd'.1]
    · simp [hx]

/-! ### Building a `Seq64` from a list -/

theorem seq64OfList_valid (l : List Nat) (hb : ∀ y ∈ l, y < 65536) :
    SeqValid64 (seq64OfList l) :=
  foldl_seq64Insert_valid l seq64New seq64New_valid hb

theorem seq64OfList_contains (l : List Nat) (hb : ∀ y ∈ l, y < 65536) (x : Nat) :
    seq64Contains (seq64OfList l) x = l.contains x := by
  rw [seq64OfList, foldl_seq64Insert_contains l seq64New seq64New_valid.1 hb x,
    seq64New_contains]
  simp

theorem seq64OfList_toList (l : List Nat) (hs : l.Pairwise (· < ·))
    (hb : ∀ y ∈ l, y < 65536) : seq64ToList (seq64OfList l) = l := by
  apply sorted_ext _ _ (seq64ToList_sorted _) hs
  intro x
  rw [seq64ToList_mem (seq64OfList l) (seq64OfList_valid l hb).1 x,
    seq64OfList_contains l hb x]
  simp

theorem seq64OfList_weight (l : List Nat) (hs : l.Pairwise (· < ·))
    (hb : ∀ y ∈ l, y < 65536) : (seq64OfList l).weight = l.length := by
  have hv := seq64OfList_valid l hb
  rw [hv.2, ← seq64ToList_length, seq64OfList_toList l hs hb]

/-! ### Cross-representation conversions preserve the element list -/

theorem seq64OfSeq16_valid (s : Seq) (hv : SeqValid16 s) : SeqValid64 (seq64OfSeq16 s) :=
  seq64OfList_valid _ hv.2.1

theorem seq64OfSeq16_toList (s : Seq) (hv : SeqValid16 s) :
    seq64ToList (seq64OfSeq16 s) = s.vector :=
  seq64OfList_toList _ hv.1 hv.2.1

theorem seq64OfSeq16_weight (s : Seq) (hv : SeqValid16 s) :
    (seq64OfSeq16 s).weight = s.weight := by
  show (seq64OfList s.vector).weight = s.weight
  rw [seq64OfList_weight _ hv.1 hv.2.1, hv.2.2]

theorem seq64OfRle16_valid (r : Rle) (hv : RleValid r) : SeqValid64 (seq64OfRle16 r) :=
  seq64OfList_valid _ (rle16ToList_bounded r hv)

theorem seq64OfRle16_toList (r : Rle) (hv : RleValid r) :
    seq64ToList (seq64OfRle16 r) = rle16ToList r :=
  seq64OfList_toList _ (rle16ToList_sorted r hv) (rle16ToList_bounded r hv)

theorem seq64OfRle16_weight (r : Rle) (hv : RleValid r) :
    (seq64OfRle16 r).weight = r.weight := by
  show (seq64OfList (rle16ToList r)).weight = r.weight
  rw [seq64OfList_weight _ (rle16ToList_sorted r hv) (rle16ToList_bounded r hv),
    rle16ToList_length r hv]

theorem seq16OfSeq64_valid (s : Seq) (hv : SeqValid64 s) : SeqValid16 (seq16OfSeq64 s) :=
  ⟨seq64ToList_sorted s, seq64ToList_bounded s hv.1, rfl⟩

theorem seq16OfSeq64_weight (s : Seq) (hv : SeqValid64 s) :
    (seq16OfSeq64 s).weight = s.weight := by
  show (seq64ToList s).length = s.weight
  rw [seq64ToList_length]
  exact hv.2.symm

theorem seq16OfRle16_valid (r : Rle) (hv : RleValid r) : SeqValid16 (seq16OfRle16 r) :=
  ⟨rle16ToList_sorted r hv, rle16ToList_bounded r hv, rfl⟩

theorem seq16OfRle16_weight (r : Rle) (hv : RleValid r) :
    (seq16OfRle16 r).weight = r.weight := by
  show (rle16ToList r).length = r.weight
  exact rle16ToList_length r hv

theorem rle16OfSeq16_valid (s : Seq) (hv : SeqValid16 s) : RleValid (rle16OfSeq16 s) :=
  rle16OfList_valid _ hv.1 hv.2.1

theorem rle16OfSeq16_toList (s : Seq) (hv : SeqValid16 s) :
    rle16ToList (rle16OfSeq16 s) = s.vector :=
  rle16OfList_toList _ hv.1

theorem rle16OfSeq16_weight (s : Seq) (hv : SeqValid16 s) :
    (rle16OfSeq16 s).weight = s.weight := by
  have hval := rle16OfSeq16_valid s hv
  have hlen := rle16ToList_length _ hval
  rw [rle16OfSeq16_toList s hv] at hlen
  rw [← hlen, hv.2.2]

theorem rle16OfSeq64_valid (s : Seq) (hv : SeqValid64 s) : RleValid (rle16OfSeq64 s) :=
  rle16OfList_valid _ (seq64ToList_sorted s) (seq64ToList_bounded s hv.1)

theorem rle16OfSeq64_toList (s : Seq) (hv : SeqValid64 s) :
    rle16ToList (rle16OfSeq64 s) = seq64ToList s :=
  rle16OfList_toList _ (seq64ToList_sorted s)

theorem rle16OfSeq64_weight (s : Seq) (hv : SeqValid64 s) :
    (rle16OfSeq64 s).weight = s.weight := by
  have hval := rle16OfSeq64_valid s hv
  have hlen := rle16ToList_length _ hval
  rw [rle16OfSeq64_toList s hv] at hlen
  rw [← hlen, seq64ToList_length]
  exact hv.2.symm

/-! ### `optimize`: decisions and invariance -/

theorem countRle_eq_runs (b : Block) (hv : b.Valid) :
    b.countRle = (runsOf b.toList).length := by
  cases b with
  | seq16 s => rfl
  | seq64 s => rfl
  | rle16 r =>
    show r.ranges.length = (runsOf (rle16ToList r)).length
    rw [show rle16ToList r = expandRuns r.ranges from rfl]
    rw [runsOf_expand_inv r.ranges hv.1 (fun p hp => (hv.2.1 p hp).1)]

theorem optimize_cases (b : Block) (hv : b.Valid) :
    Block.optimize b =
      if rle16SizeInBytes b.countRle ≤
          min (seq64SizeInBytes 1024) (seq16SizeInBytes b.count1) then toRleBlock b
      else if b.count1 ≤ 4096 then toSeq16Block b
      else toSeq64Block b := by
  cases b with
  | seq16 s =>
    show (if rle16SizeInBytes (rle16OfSeq16 s).ranges.length ≤
        min (seq64SizeInBytes 1024) (seq16SizeInBytes s.vector.length) then
          Block.rle16 (rle16OfSeq16 s)
        else if s.weight ≤ 4096 then Block.seq16 s
        else Block.seq64 (seq64OfSeq16 s)) = _
    rw [show s.vector.length = (Block.seq16 s).count1 from hv.2.2.symm]
    rfl
  | seq64 s =>
    show (if rle16SizeInBytes (rle16OfSeq64 s).ranges.length ≤
        min (seq64SizeInBytes s.vector.length) (seq16SizeInBytes s.weight) then
          Block.rle16 (rle16OfSeq64 s)
        else if s.weight ≤ 4096 then Block.seq16 (seq16OfSeq64 s)
        else Block.seq64 s) = _
    rw [hv.1]
    rfl
  | rle16 r => rfl

theorem toRleBlock_valid (b : Block) (hv : b.Valid) : (toRleBlock b).Valid := by
  cases b with
  | seq16 s => exact rle16OfSeq16_valid s hv
  | seq64 s => exact rle16OfSeq64_valid s hv
  | rle16 r => exact hv

theorem toSeq16Block_valid (b : Block) (hv : b.Valid) : (toSeq16Block b).Valid := by
  cases b with
  | seq16 s => exact hv
  | seq64 s => exact seq16OfSeq64_valid s hv
  | rle16 r => exact seq16OfRle16_valid r hv

theorem toSeq64Block_valid (b : Block) (hv : b.Valid) : (toSeq64Block b).Valid := by
  cases b with
  | seq16 s => exact seq64OfSeq16_valid s hv
  | seq64 s => exact hv
  | rle16 r => exact seq64OfRle16_valid r hv

theorem toRleBlock_toList (b : Block) (hv : b.Valid) :
    (toRleBlock b).toList = b.toList := by
  cases b with
  | seq16 s => exact rle16OfSeq16_toList s hv
  | seq64 s => exact rle16OfSeq64_toList s hv
  | rle16 r => rfl

theorem toSeq16Block_toList (b : Block) (hv : b.Valid) :
    (toSeq16Block b).toList = b.toList := by
  cases b with
  | seq16 s => rfl
  | seq64 s => rfl
  | rle16 r => rfl

theorem toSeq64Block_toList (b : Block) (hv : b.Valid) :
    (toSeq64Block b).toList = b.toList := by
  cases b with
  | seq16 s => exact seq64OfSeq16_toList s hv
  | seq64 s => rfl
  | rle16 r => exact seq64OfRle16_toList r hv

theorem toRleBlock_idem (b : Block) : toRleBlock (toRleBlock b) = toRleBlock b := by
  cases b <;> rfl

theorem toSeq16Block_idem (b : Block) : toSeq16Block (toSeq16Block b) = toSeq16Block b := by
  cases b <;> rfl

theorem toSeq64Block_idem (b : Block) : toSeq64Block (toSeq64Block b) = toSeq64Block b := by
  cases b <;> rfl

theorem optimize_valid (b : Block) (hv : b.Valid) : (Block.optimize b).Valid := by
  rw [optimize_cases b hv]
  by_cases h1 : rle16SizeInBytes b.countRle ≤
      min (seq64SizeInBytes 1024) (seq16SizeInBytes b.count1)
  · rw [if_pos h1]
    exact toRleBlock_valid b hv
  · rw [if_neg h1]
    by_cases h2 : b.count1 ≤ 4096
    · rw [if_pos h2]
      exact toSeq16Block_valid b hv
    · rw [if_neg h2]
      exact toSeq64Block_valid b hv

theorem optimize_toList (b : Block) (hv : b.Valid) :
    (Block.optimize b).toList = b.toList := by
  rw [optimize_cases b hv]
  by_cases h1 : rle16SizeInBytes b.countRle ≤
      min (seq64SizeInBytes 1024) (seq16SizeInBytes b.count1)
  · rw [if_pos h1]
    exact toRleBlock_toList b hv
  · rw [if_neg h1]
    by_cases h2 : b.count1 ≤ 4096
    · rw [if_pos h2]
      exact toSeq16Block_toList b hv
    · rw [if_neg h2]
      exact toSeq64Block_toList b hv

theorem optimize_count1 (b : Block) (hv : b.Valid) :
    (Block.optimize b).count1 = b.count1 := by
  rw [count1_eq_length _ (optimize_valid b hv), count1_eq_length _ hv,
    optimize_toList b hv]

theorem optimize_countRle (b : Block) (hv : b.Valid) :
    (Block.optimize b).countRle = b.countRle := by
  rw [countRle_eq_runs _ (optimize_valid b hv), countRle_eq_runs _ hv,
    optimize_toList b hv]

theorem optimize_idem (b : Block) (hv : b.Valid) :
    Block.optimize (Block.optimize b) = Block.optimize b := by
  have hc := optimize_cases b hv
  have hv' := optimize_valid b hv
  rw [optimize_cases (Block.optimize b) hv', optimize_countRle b hv,
    optimize_count1 b hv]
  by_cases h1 : rle16SizeInBytes b.countRle ≤
      min (seq64SizeInBytes 1024) (seq16SizeInBytes b.count1)
  · rw [if_pos h1]
    rw [if_pos h1] at hc
    rw [hc, toRleBlock_idem]
  · rw [if_neg h1]
    rw [if_neg h1] at hc
    by_cases h2 : b.count1 ≤ 4096
    · rw [if_pos h2]
      rw [if_pos h2] at hc
      rw [hc, toSeq16Block_idem]
    · rw [if_neg h2]
      rw [if_neg h2] at hc
      rw [hc, toSeq64Block_idem]

theorem contains_congr (a b : Block) (hva : a.Valid) (hvb : b.Valid)
    (h : a.toList = b.toList) (x : Nat) : a.contains x = b.contains x := by
  by_cases hx : x < 65536
  · have hiff := (contains_iff_mem a hva x).trans
      (h ▸ (contains_iff_mem b hvb x).symm)
    by_cases ha : a.contains x = true
    · rw [ha, hiff.mp ha]
    · have hb : ¬ b.contains x = true := fun hb => ha (hiff.mpr hb)
      rw [Bool.not_eq_true] at ha hb
      rw [ha, hb]
  · rw [contains_out a hva x (by omega), contains_out b hvb x (by omega)]

theorem toRleBlock_kind (b : Block) : (toRleBlock b).kind = Kind.rle16 := by
  cases b <;> rfl

theorem toSeq16Block_kind (b : Block) : (toSeq16Block b).kind = Kind.seq16 := by
  cases b <;> rfl

theorem toSeq64Block_kind (b : Block) : (toSeq64Block b).kind = Kind.seq64 := by
  cases b <;> rfl

theorem countP_contains_toList (b : Block) (hv : b.Valid) (i : Nat) :
    (List.range i).countP (fun y => b.contains y) =
      b.toList.countP (fun y => decide (y < i)) := by
  rw [← countP_range_mem i b.toList (sorted_nodup _ (toList_sorted b hv))]
  apply List.countP_congr
  intro x _
  by_cases hc : b.contains x = true
  · have hm := (contains_iff_mem b hv x).mp hc
    rw [hc]
    simpa using hm
  · have hm : x ∉ b.toList := fun m => hc ((contains_iff_mem b hv x).mpr m)
    rw [Bool.not_eq_true] at hc
    rw [hc]
    simpa using hm

/-! ## The claims -/

/-- C1: for every valid block, `optimize` picks the representation with the
smallest projected size — `Rle16` when `size(Rle16) ≤ min(size(Seq64),
size(Seq16))`, else `Seq16` when the weight is at most 4096, else `Seq64`
— with ties resolved in the order `Rle16`, `Seq16`, `Seq64`. -/
theorem optimize_selects_smallest (b : Block) (hv : b.Valid) :
    (Block.optimize b).kind =
      if rle16SizeInBytes b.countRle ≤
          min (seq64SizeInBytes 1024) (seq16SizeInBytes b.count1) then Kind.rle16
      else if b.count1 ≤ 4096 then Kind.seq16
      else Kind.seq64 := by
  rw [optimize_cases b hv]
  by_cases h1 : rle16SizeInBytes b.countRle ≤
      min (seq64SizeInBytes 1024) (seq16SizeInBytes b.count1)
  · rw [if_pos h1, if_pos h1, toRleBlock_kind]
  · rw [if_neg h1, if_neg h1]
    by_cases h2 : b.count1 ≤ 4096
    · rw [if_pos h2, if_pos h2, toSeq16Block_kind]
    · rw [if_neg h2, if_neg h2, toSeq64Block_kind]

theorem optimize_selects_smallest_witness :
    (Block.seq16 ⟨3, [1, 5, 9]⟩).Valid ∧
      (Block.optimize (Block.seq16 ⟨3, [1, 5, 9]⟩)).kind =
        (if rle16SizeInBytes (Block.seq16 ⟨3, [1, 5, 9]⟩).countRle ≤
            min (seq64SizeInBytes 1024)
              (seq16SizeInBytes (Block.seq16 ⟨3, [1, 5, 9]⟩).count1) then Kind.rle16
         else if (Block.seq16 ⟨3, [1, 5, 9]⟩).count1 ≤ 4096 then Kind.seq16
         else Kind.seq64) :=
  ⟨by decide, optimize_selects_smallest _ (by decide)⟩

/-- C2: `optimize` never changes the abstract set, and a second call
changes neither the representation nor the set. -/
theorem optimize_pure_idem (b : Block) (hv : b.Valid) :
    (∀ x : Nat, (Block.optimize b).contains x = b.contains x) ∧
      Block.optimize (Block.optimize b) = Block.optimize b :=
  ⟨fun x => contains_congr _ _ (optimize_valid b hv) hv (optimize_toList b hv) x,
   optimize_idem b hv⟩

theorem optimize_pure_idem_witness :
    (Block.seq16 ⟨3, [1, 5, 9]⟩).Valid ∧
      (Block.optimize (Block.seq16 ⟨3, [1, 5, 9]⟩)).contains 5 =
        (Block.seq16 ⟨3, [1, 5, 9]⟩).contains 5 ∧
      Block.optimize (Block.optimize (Block.seq16 ⟨3, [1, 5, 9]⟩)) =
        Block.optimize (Block.seq16 ⟨3, [1, 5, 9]⟩) :=
  ⟨by decide, (optimize_pure_idem _ (by decide)).1 5,
    (optimize_pure_idem _ (by decide)).2⟩

/-- C3: for every valid block and every 16-bit index `i`, `rank1(b, i)` is
the number of elements of the abstract set strictly below `i`. -/
theorem rank1_counts_below (b : Block) (hv : b.Valid) (i : Nat) (hi : i < 65536) :
    b.rank1 i = (List.range i).countP (fun y => b.contains y) :=
  rank1_eq_count b hv i hi

theorem rank1_counts_below_witness :
    (Block.rle16 ⟨5, [(1, 3), (5, 6)]⟩).Valid ∧ 6 < 65536 ∧
      (Block.rle16 ⟨5, [(1, 3), (5, 6)]⟩).rank1 6 =
        (List.range 6).countP (fun y => (Block.rle16 ⟨5, [(1, 3), (5, 6)]⟩).contains y) :=
  ⟨by decide, by decide, rank1_counts_below _ (by decide) 6 (by decide)⟩

/-- C6: for every valid block, `select1(b, k)` with `k < count_ones`
returns a position that is in the set and whose rank is exactly `k`; for
`k ≥ count_ones` it returns `none`. -/
theorem select1_rank_inverse (b : Block) (hv : b.Valid) (k : Nat) :
    (k < b.count1 →
      ∃ p, b.select1 k = some p ∧ b.contains p = true ∧ b.rank1 p = k) ∧
      (b.count1 ≤ k → b.select1 k = none) := by
  constructor
  · intro hk
    have hlen : k < b.toList.length := by
      rw [← count1_eq_length b hv]
      exact hk
    have hg : b.toList.get? k = some (b.toList.get ⟨k, hlen⟩) := List.get?_eq_get hlen
    refine ⟨b.toList.get ⟨k, hlen⟩, ?_, ?_, ?_⟩
    · rw [select1_eq_get b hv k, if_neg (by omega)]
      exact hg
    · rw [contains_iff_mem b hv _]
      exact List.get_mem _ _ _
    · have hpmem : b.toList.get ⟨k, hlen⟩ ∈ b.toList := List.get_mem _ _ _
      have hpb := toList_bounded b hv _ hpmem
      rw [rank1_eq_count b hv _ hpb, countP_contains_toList b hv _]
      exact sorted_countP_lt_get b.toList (toList_sorted b hv) k _ hg
  · intro hk
    rw [select1_eq_get b hv k, if_pos hk]

theorem select1_rank_inverse_witness :
    (Block.rle16 ⟨5, [(1, 3), (5, 6)]⟩).Valid ∧
      3 < (Block.rle16 ⟨5, [(1, 3), (5, 6)]⟩).count1 ∧
      (∃ p, (Block.rle16 ⟨5, [(1, 3), (5, 6)]⟩).select1 3 = some p ∧
        (Block.rle16 ⟨5, [(1, 3), (5, 6)]⟩).contains p = true ∧
        (Block.rle16 ⟨5, [(1, 3), (5, 6)]⟩).rank1 p = 3) ∧
      (Block.rle16 ⟨5, [(1, 3), (5, 6)]⟩).count1 ≤ 9 ∧
      (Block.rle16 ⟨5, [(1, 3), (5, 6)]⟩).select1 9 = none :=
  ⟨by decide, by decide,
    (select1_rank_inverse _ (by decide) 3).1 (by decide), by decide,
    (select1_rank_inverse _ (by decide) 9).2 (by decide)⟩

/-! ### C4, C5: the map layer -/

/-- C4 (counterexample): on the empty 64-bit map at `i = 1`, `rank0`
returns `2`, not `i − rank1(i) = 1`. -/
theorem rank0_not_sub_rank1 :
    ¬ (Vec64.rank0 ⟨[]⟩ 1 = 1 - Vec64.rank1 ⟨[]⟩ 1) := by decide

/-- C4 (amended): the map layer counts in `[0, i]`, so for `i > 0` the
code computes `rank0(i) = i + 1 − rank1(i)`, and `rank0(0) = 0`. -/
theorem rank0_complements_rank1 (m : Vec64) (i : Nat) :
    (0 < i → m.rank0 i = i + 1 - m.rank1 i) ∧ m.rank0 0 = 0 := by
  constructor
  · intro hi
    unfold Vec64.rank0
    rw [if_neg (by omega)]
  · unfold Vec64.rank0
    rw [if_pos rfl]

theorem rank0_complements_rank1_witness :
    0 < 5 ∧ Vec64.rank0 ⟨[]⟩ 5 = 5 + 1 - Vec64.rank1 ⟨[]⟩ 5 ∧
      Vec64.rank0 ⟨[]⟩ 0 = 0 :=
  ⟨by decide, (rank0_complements_rank1 ⟨[]⟩ 5).1 (by decide),
    (rank0_complements_rank1 ⟨[]⟩ 0).2⟩

/-- C5 (evaluation at the failing input): the empty 64-bit map has `2^64`
zero bits, yet `select0(0)` returns an absent value — the loop visits only
present shards, so it never finds the zeros of absent keys. -/
theorem select0_empty_map_none :
    Vec64.select0 ⟨[]⟩ 0 = none ∧ Vec64.countZeros ⟨[]⟩ = 2 ^ 64 ∧
      (0 : Nat) < 2 ^ 64 := by
  refine ⟨rfl, ?_, ?_⟩
  · show 2 ^ 64 - Vec64.countOnes ⟨[]⟩ = 2 ^ 64
    rfl
  · exact Nat.pos_pow_of_pos 64 (by omega)

/-! ### C8: split and merge -/

theorem merge_split_general (s x : Nat) (hx : x < 2 ^ (2 * s)) :
    ((((x >>> s) % 2 ^ s) <<< s) % 2 ^ (2 * s)) ||| (x % 2 ^ s) = x := by
  apply Nat.eq_of_testBit_eq
  intro i
  rw [Nat.testBit_or, Nat.testBit_mod_two_pow, Nat.testBit_shiftLeft,
    Nat.testBit_mod_two_pow, Nat.testBit_shiftRight, Nat.testBit_mod_two_pow]
  by_cases h1 : i < s
  · have e1 : ¬ s ≤ i := by omega
    have e2 : i < 2 * s := by omega
    simp [h1, e1, e2]
  · by_cases h2 : i < 2 * s
    · have e1 : s ≤ i := by omega
      have e3 : i - s < s := by omega
      have e4 : s + (i - s) = i := by omega
      simp [h1, h2, e1, e3, e4]
    · have hxi : x.testBit i = false :=
        Nat.testBit_lt_two_pow (Nat.lt_of_lt_of_le hx
          (Nat.pow_le_pow_right (by omega) (Nat.le_of_not_lt h2)))
      simp [h1, h2, hxi]

theorem split_merge_general_hi (s hi lo : Nat) (hhi : hi < 2 ^ s)
    (hlo : lo < 2 ^ s) :
    ((((hi <<< s) % 2 ^ (2 * s)) ||| lo) >>> s) % 2 ^ s = hi := by
  apply Nat.eq_of_testBit_eq
  intro i
  rw [Nat.testBit_mod_two_pow, Nat.testBit_shiftRight, Nat.testBit_or,
    Nat.testBit_mod_two_pow, Nat.testBit_shiftLeft]
  by_cases h1 : i < s
  · have hloi : lo.testBit (s + i) = false :=
      Nat.testBit_lt_two_pow (Nat.lt_of_lt_of_le hlo
        (Nat.pow_le_pow_right (by omega) (by omega)))
    have e1 : s + i < 2 * s := by omega
    have e2 : s ≤ s + i := by omega
    have e3 : s + i - s = i := by omega
    simp [h1, hloi, e1, e2, e3]
  · have hhii : hi.testBit i = false :=
      Nat.testBit_lt_two_pow (Nat.lt_of_lt_of_le hhi
        (Nat.pow_le_pow_right (by omega) (Nat.le_of_not_lt h1)))
    simp [h1, hhii]

theorem split_merge_general_lo (s hi lo : Nat) (hhi : hi < 2 ^ s)
    (hlo : lo < 2 ^ s) :
    ((((hi <<< s) % 2 ^ (2 * s)) ||| lo) % 2 ^ s) = lo := by
  apply Nat.eq_of_testBit_eq
  intro i
  rw [Nat.testBit_mod_two_pow, Nat.testBit_or, Nat.testBit_mod_two_pow,
    Nat.testBit_shiftLeft]
  by_cases h1 : i < s
  · have e1 : ¬ s ≤ i := by omega
    have e2 : i < 2 * s := by omega
    simp [h1, e1, e2]
  · have hloi : lo.testBit i = false :=
      Nat.testBit_lt_two_pow (Nat.lt_of_lt_of_le hlo
        (Nat.pow_le_pow_right (by omega) (Nat.le_of_not_lt h1)))
    simp [h1, hloi]

/-- C8: split and merge are mutually inverse at every width — for `u64`,
`u32` and `u16` values `x`, `merge (split x) = x`, and for half-width pairs
`(hi, lo)`, `split (merge (hi, lo)) = (hi, lo)`. -/
theorem split_merge_inverse (x64 x32 x16 h32 l32 h16 l16 h8 l8 : Nat)
    (hx64 : x64 < 2 ^ 64) (hx32 : x32 < 2 ^ 32) (hx16 : x16 < 2 ^ 16)
    (hh32 : h32 < 2 ^ 32) (hl32 : l32 < 2 ^ 32)
    (hh16 : h16 < 2 ^ 16) (hl16 : l16 < 2 ^ 16)
    (hh8 : h8 < 2 ^ 8) (hl8 : l8 < 2 ^ 8) :
    merge64 (split64 x64) = x64 ∧ merge32 (split32 x32) = x32 ∧
      merge16 (split16 x16) = x16 ∧
      split64 (merge64 (h32, l32)) = (h32, l32) ∧
      split32 (merge32 (h16, l16)) = (h16, l16) ∧
      split16 (merge16 (h8, l8)) = (h8, l8) := by
  refine ⟨?_, ?_, ?_, ?_, ?_, ?_⟩
  · exact merge_split_general 32 x64 hx64
  · exact merge_split_general 16 x32 hx32
  · exact merge_split_general 8 x16 hx16
  · show ((merge64 (h32, l32) >>> 32) % 2 ^ 32, merge64 (h32, l32) % 2 ^ 32) = _
    rw [show merge64 (h32, l32) = (((h32 <<< 32) % 2 ^ (2 * 32)) ||| l32) from rfl]
    rw [split_merge_general_hi 32 h32 l32 hh32 hl32,
      split_merge_general_lo 32 h32 l32 hh32 hl32]
  · show ((merge32 (h16, l16) >>> 16) % 2 ^ 16, merge32 (h16, l16) % 2 ^ 16) = _
    rw [show merge32 (h16, l16) = (((h16 <<< 16) % 2 ^ (2 * 16)) ||| l16) from rfl]
    rw [split_merge_general_hi 16 h16 l16 hh16 hl16,
      split_merge_general_lo 16 h16 l16 hh16 hl16]
  · show ((merge16 (h8, l8) >>> 8) % 2 ^ 8, merge16 (h8, l8) % 2 ^ 8) = _
    rw [show merge16 (h8, l8) = (((h8 <<< 8) % 2 ^ (2 * 8)) ||| l8) from rfl]
    rw [split_merge_general_hi 8 h8 l8 hh8 hl8,
      split_merge_general_lo 8 h8 l8 hh8 hl8]

theorem split_merge_inverse_witness :
    (1 <<< 50) + 3 < 2 ^ 64 ∧ merge64 (split64 ((1 <<< 50) + 3)) = (1 <<< 50) + 3 ∧
      split64 (merge64 (7, 9)) = (7, 9) := by
  refine ⟨by rw [Nat.one_shiftLeft]; norm_num, ?_, ?_⟩
  · exact (split_merge_inverse ((1 <<< 50) + 3) 0 0 0 0 0 0 0 0
      (by rw [Nat.one_shiftLeft]; norm_num)
      (by norm_num) (by norm_num) (by norm_num) (by norm_num) (by norm_num)
      (by norm_num) (by norm_num) (by norm_num)).1
  · exact (split_merge_inverse 0 0 0 7 9 0 0 0 0 (by norm_num) (by norm_num)
      (by norm_num) (by norm_num) (by norm_num) (by norm_num) (by norm_num)
      (by norm_num) (by norm_num)).2.2.2.1

/-! ### C10: `PopCount` -/

/-- C10: for every width `w` and count `c ≤ 2^w`, `PopCount::new(c)` round
trips through `cardinality`; in particular `c = 2^w` is represented by the
`Full` variant. -/
theorem popcount_new_cardinality (w c : Nat) (hc : c ≤ 2 ^ w) :
    popCntCard w (popCntNew w c) = c ∧ popCntNew w (2 ^ w) = PopCnt.full := by
  constructor
  · unfold popCntNew
    rw [if_neg (by omega)]
    by_cases h2 : 2 ^ w = c
    · rw [if_pos h2]
      exact h2
    · rw [if_neg h2]
      show c % 2 ^ w = c
      exact Nat.mod_eq_of_lt (by omega)
  · unfold popCntNew
    rw [if_neg (Nat.lt_irrefl _), if_pos rfl]

theorem popcount_new_cardinality_witness :
    5 ≤ 2 ^ 8 ∧ popCntCard 8 (popCntNew 8 5) = 5 ∧
      2 ^ 16 ≤ 2 ^ 16 ∧ popCntCard 16 (popCntNew 16 (2 ^ 16)) = 2 ^ 16 ∧
      popCntNew 16 (2 ^ 16) = PopCnt.full :=
  ⟨by decide, (popcount_new_cardinality 8 5 (by decide)).1, by decide,
    (popcount_new_cardinality 16 (2 ^ 16) (by decide)).1,
    (popcount_new_cardinality 16 0 (by decide)).2⟩

/-! ### C7/C9: pairwise algebra -/

theorem bool_eq_of_iff {a b : Bool} (h : a = true ↔ b = true) : a = b := by
  cases a <;> cases b <;> simp_all

theorem mem_unionMerge (l1 l2 : List Nat) (x : Nat) :
    x ∈ unionMerge l1 l2 ↔ (x ∈ l1 ∨ x ∈ l2) := by
  match l1, l2 with
  | [], l2 => simp [unionMerge]
  | a :: l1, [] => simp [unionMerge]
  | a :: l1, b :: l2 =>
    rw [unionMerge]
    by_cases h1 : a < b
    · rw [if_pos h1]
      have ih := mem_unionMerge l1 (b :: l2) x
      simp only [List.mem_cons] at ih ⊢
      rw [ih]
      tauto
    · rw [if_neg h1]
      by_cases h2 : b < a
      · rw [if_pos h2]
        have ih := mem_unionMerge (a :: l1) l2 x
        simp only [List.mem_cons] at ih ⊢
        rw [ih]
        tauto
      · rw [if_neg h2]
        have hab : a = b := by omega
        subst hab
        have ih := mem_unionMerge l1 l2 x
        simp only [List.mem_cons] at ih ⊢
        rw [ih]
        tauto
termination_by l1.length + l2.length

theorem unionMerge_sorted (l1 l2 : List Nat) (h1 : l1.Pairwise (· < ·))
    (h2 : l2.Pairwise (· < ·)) : (unionMerge l1 l2).Pairwise (· < ·) := by
  match l1, l2 with
  | [], l2 => rw [unionMerge]; exact h2
  | a :: l1, [] =>
    rw [unionMerge]
    · exact h1
    · simp
  | a :: l1, b :: l2 =>
    have p1 := List.pairwise_cons.mp h1
    have p2 := List.pairwise_cons.mp h2
    rw [unionMerge]
    by_cases hc1 : a < b
    · rw [if_pos hc1]
      apply List.pairwise_cons.mpr
      refine ⟨?_, unionMerge_sorted l1 (b :: l2) p1.2 h2⟩
      intro y hy
      rcases (mem_unionMerge l1 (b :: l2) y).mp hy with hy | hy
      · exact p1.1 y hy
      · rcases List.mem_cons.mp hy with rfl | hy
        · exact hc1
        · exact Nat.lt_trans hc1 (p2.1 y hy)
    · rw [if_neg hc1]
      by_cases hc2 : b < a
      · rw [if_pos hc2]
        apply List.pairwise_cons.mpr
        refine ⟨?_, unionMerge_sorted (a :: l1) l2 h1 p2.2⟩
        intro y hy
        rcases (mem_unionMerge (a :: l1) l2 y).mp hy with hy | hy
        · rcases List.mem_cons.mp hy with rfl | hy
          · exact hc2
          · exact Nat.lt_trans hc2 (p1.1 y hy)
        · exact p2.1 y hy
      · rw [if_neg hc2]
        have hab : a = b := by omega
        subst hab
        apply List.pairwise_cons.mpr
        refine ⟨?_, unionMerge_sorted l1 l2 p1.2 p2.2⟩
        intro y hy
        rcases (mem_unionMerge l1 l2 y).mp hy with hy | hy
        · exact p1.1 y hy
        · exact p2.1 y hy
termination_by l1.length + l2.length

theorem xorMerge_subset (l1 l2 : List Nat) (x : Nat) (hx : x ∈ xorMerge l1 l2) :
    x ∈ l1 ∨ x ∈ l2 := by
  match l1, l2 with
  | [], l2 => rw [xorMerge] at hx; exact Or.inr hx
  | a :: l1, [] =>
    rw [xorMerge] at hx
    · exact Or.inl hx
    · simp
  | a :: l1, b :: l2 =>
    rw [xorMerge] at hx
    by_cases h1 : a < b
    · rw [if_pos h1] at hx
      rcases List.mem_cons.mp hx with rfl | hx
      · exact Or.inl (List.mem_cons_self _ _)
      · rcases xorMerge_subset l1 (b :: l2) x hx with h | h
        · exact Or.inl (List.mem_cons_of_mem a h)
        · exact Or.inr h
    · rw [if_neg h1] at hx
      by_cases h2 : b < a
      · rw [if_pos h2] at hx
        rcases List.mem_cons.mp hx with rfl | hx
        · exact Or.inr (List.mem_cons_self _ _)
        · rcases xorMerge_subset (a :: l1) l2 x hx with h | h
          · exact Or.inl h
          · exact Or.inr (List.mem_cons_of_mem b h)
      · rw [if_neg h2] at hx
        rcases xorMerge_subset l1 l2 x hx with h | h
        · exact Or.inl (List.mem_cons_of_mem a h)
        · exact Or.inr (List.mem_cons_of_mem b h)
termination_by l1.length + l2.length

theorem xorMerge_sorted (l1 l2 : List Nat) (h1 : l1.Pairwise (· < ·))
    (h2 : l2.Pairwise (· < ·)) : (xorMerge l1 l2).Pairwise (· < ·) := by
  match l1, l2 with
  | [], l2 => rw [xorMerge]; exact h2
  | a :: l1, [] =>
    rw [xorMerge]
    · exact h1
    · simp
  | a :: l1, b :: l2 =>
    have p1 := List.pairwise_cons.mp h1
    have p2 := List.pairwise_cons.mp h2
    rw [xorMerge]
    by_cases hc1 : a < b
    · rw [if_pos hc1]
      apply List.pairwise_cons.mpr
      refine ⟨?_, xorMerge_sorted l1 (b :: l2) p1.2 h2⟩
      intro y hy
      rcases xorMerge_subset l1 (b :: l2) y hy with hy | hy
      · exact p1.1 y hy
      · rcases List.mem_cons.mp hy with rfl | hy
        · exact hc1
        · exact Nat.lt_trans hc1 (p2.1 y hy)
    · rw [if_neg hc1]
      by_cases hc2 : b < a
      · rw [if_pos hc2]
        apply List.pairwise_cons.mpr
        refine ⟨?_, xorMerge_sorted (a :: l1) l2 h1 p2.2⟩
        intro y hy
        rcases xorMerge_subset (a :: l1) l2 y hy with hy | hy
        · rcases List.mem_cons.mp hy with rfl | hy
          · exact hc2
          · exact Nat.lt_trans hc2 (p1.1 y hy)
        · exact p2.1 y hy
      · rw [if_neg hc2]
        exact xorMerge_sorted l1 l2 p1.2 p2.2
termination_by l1.length + l2.length

theorem mem_xorMerge (l1 l2 : List Nat) (h1 : l1.Pairwise (· < ·))
    (h2 : l2.Pairwise (· < ·)) (x : Nat) :
    x ∈ xorMerge l1 l2 ↔ ((x ∈ l1 ∧ x ∉ l2) ∨ (x ∉ l1 ∧ x ∈ l2)) := by
  match l1, l2 with
  | [], l2 => rw [xorMerge]; simp
  | a :: l1, [] =>
    rw [xorMerge]
    · simp
    · simp
  | a :: l1, b :: l2 =>
    have p1 := List.pairwise_cons.mp h1
    have p2 := List.pairwise_cons.mp h2
    have ha1 : a ∉ l1 := fun h => absurd (p1.1 a h) (Nat.lt_irrefl a)
    have hb2 : b ∉ l2 := fun h => absurd (p2.1 b h) (Nat.lt_irrefl b)
    rw [xorMerge]
    by_cases hc1 : a < b
    · rw [if_pos hc1]
      have ih := mem_xorMerge l1 (b :: l2) p1.2 h2 x
      simp only [List.mem_cons] at ih ⊢
      rw [ih]
      by_cases hx : x = a
      · subst hx
        have hnb : ¬(x = b ∨ x ∈ l2) := by
          rintro (rfl | h)
          · omega
          · have := p2.1 x h
            omega
        simp [hnb, ha1]
      · simp [hx]
    · rw [if_neg hc1]
      by_cases hc2 : b < a
      · rw [if_pos hc2]
        have ih := mem_xorMerge (a :: l1) l2 h1 p2.2 x
        simp only [List.mem_cons] at ih ⊢
        rw [ih]
        by_cases hx : x = b
        · subst hx
          have hna : ¬(x = a ∨ x ∈ l1) := by
            rintro (rfl | h)
            · omega
            · have := p1.1 x h
              omega
          simp [hna, hb2]
        · simp [hx]
      · rw [if_neg hc2]
        have hab : a = b := by omega
        subst hab
        have ih := mem_xorMerge l1 l2 p1.2 p2.2 x
        simp only [List.mem_cons] at ih ⊢
        by_cases hx : x = a
        · subst hx
          simp [ih, ha1, hb2]
        · simp [hx, ih]
termination_by l1.length + l2.length

theorem pairInter_contains (l1 l2 : List Nat) (x : Nat) :
    (pairInter l1 l2).contains x = (l1.contains x && l2.contains x) := by
  apply bool_eq_of_iff
  simp [pairInter, List.mem_filter]

theorem pairDiff_contains (l1 l2 : List Nat) (x : Nat) :
    (pairDiff l1 l2).contains x = (l1.contains x && !(l2.contains x)) := by
  apply bool_eq_of_iff
  simp [pairDiff, List.mem_filter]

theorem unionMerge_contains (l1 l2 : List Nat) (x : Nat) :
    (unionMerge l1 l2).contains x = (l1.contains x || l2.contains x) := by
  apply bool_eq_of_iff
  simp [mem_unionMerge]

theorem xorMerge_contains (l1 l2 : List Nat) (h1 : l1.Pairwise (· < ·))
    (h2 : l2.Pairwise (· < ·)) (x : Nat) :
    (xorMerge l1 l2).contains x = Bool.xor (l1.contains x) (l2.contains x) := by
  apply bool_eq_of_iff
  rw [show (xorMerge l1 l2).contains x = true ↔ x ∈ xorMerge l1 l2 from by simp]
  rw [mem_xorMerge l1 l2 h1 h2 x]
  by_cases m1 : x ∈ l1 <;> by_cases m2 : x ∈ l2 <;> simp [m1, m2]

theorem rle16Contains_eq (r : Rle) (x : Nat) :
    rle16Contains r x = (rle16ToList r).contains x := by
  apply bool_eq_of_iff
  rw [rle16Contains_iff_mem]
  simp

theorem contains_eq_toList (b : Block) (hv : b.Valid) (x : Nat) :
    b.contains x = b.toList.contains x := by
  apply bool_eq_of_iff
  rw [contains_iff_mem b hv x]
  simp

theorem seq64WordWise_contains (f : Nat → Nat → Nat) (g : Bool → Bool → Bool)
    (hf : ∀ a b i, (f a b).testBit i = g (a.testBit i) (b.testBit i))
    (hg : g false false = false) (s1 s2 : Seq)
    (hl1 : s1.vector.length = 1024) (hl2 : s2.vector.length = 1024) (x : Nat) :
    seq64Contains (seq64WordWise f s1 s2) x =
      g (seq64Contains s1 x) (seq64Contains s2 x) := by
  unfold seq64WordWise seq64Contains
  simp only
  by_cases hx : x / 64 < 1024
  · have h1 : x / 64 < s1.vector.length := by omega
    have h2 : x / 64 < s2.vector.length := by omega
    have hz : (List.zipWith f s1.vector s2.vector).getD (x / 64) 0 =
        f (s1.vector.getD (x / 64) 0) (s2.vector.getD (x / 64) 0) := by
      simp [List.getD, List.getElem?_zipWith, List.getElem?_eq_getElem, h1, h2]
    rw [hz, hf]
  · have hz1 : (List.zipWith f s1.vector s2.vector).getD (x / 64) 0 = 0 := by
      apply List.getD_eq_default
      rw [List.length_zipWith]
      omega
    rw [hz1, List.getD_eq_default _ _ (by omega), List.getD_eq_default _ _ (by omega)]
    rw [Nat.zero_testBit]
    exact hg.symm

theorem seq64WordWise_valid (f : Nat → Nat → Nat) (s1 s2 : Seq)
    (h1 : SeqValid64 s1) (h2 : SeqValid64 s2) : SeqValid64 (seq64WordWise f s1 s2) := by
  constructor
  · show (List.zipWith f s1.vector s2.vector).length = 1024
    rw [List.length_zipWith, h1.1, h2.1]
    simp
  · rfl

/-! ### The `Seq64`-left dispatch helpers -/

theorem seq64UnionBlock_contains (b1 : Seq) (h1 : SeqValid64 b1) (b2 : Block)
    (h2 : b2.Valid) (x : Nat) :
    seq64Contains (seq64UnionBlock b1 b2) x =
      (seq64Contains b1 x || b2.contains x) := by
  cases b2 with
  | seq64 s2 =>
    exact seq64WordWise_contains Nat.lor (· || ·) Nat.testBit_or rfl b1 s2 h1.1 h2.1 x
  | seq16 s2 =>
    show seq64Contains (s2.vector.foldl seq64Insert b1) x = _
    rw [foldl_seq64Insert_contains s2.vector b1 h1.1 h2.2.1 x]
    rfl
  | rle16 r2 =>
    show seq64Contains ((rle16ToList r2).foldl seq64Insert b1) x = _
    rw [foldl_seq64Insert_contains _ b1 h1.1 (rle16ToList_bounded r2 h2) x]
    show _ = (seq64Contains b1 x || rle16Contains r2 x)
    rw [rle16Contains_eq]

theorem seq64UnionBlock_valid (b1 : Seq) (h1 : SeqValid64 b1) (b2 : Block)
    (h2 : b2.Valid) : SeqValid64 (seq64UnionBlock b1 b2) := by
  cases b2 with
  | seq64 s2 => exact seq64WordWise_valid Nat.lor b1 s2 h1 h2
  | seq16 s2 => exact foldl_seq64Insert_valid s2.vector b1 h1 h2.2.1
  | rle16 r2 => exact foldl_seq64Insert_valid _ b1 h1 (rle16ToList_bounded r2 h2)

theorem seq64DiffBlock_contains (b1 : Seq) (h1 : SeqValid64 b1) (b2 : Block)
    (h2 : b2.Valid) (x : Nat) :
    seq64Contains (seq64DiffBlock b1 b2) x =
      (seq64Contains b1 x && !(b2.contains x)) := by
  cases b2 with
  | seq64 s2 =>
    exact seq64WordWise_contains Nat.ldiff (fun a b => a && !b)
      Nat.testBit_ldiff rfl b1 s2 h1.1 h2.1 x
  | seq16 s2 =>
    show seq64Contains (s2.vector.foldl seq64Remove b1) x = _
    rw [foldl_seq64Remove_contains s2.vector b1 h1.1 h2.2.1 x]
    rfl
  | rle16 r2 =>
    show seq64Contains ((rle16ToList r2).foldl seq64Remove b1) x = _
    rw [foldl_seq64Remove_contains _ b1 h1.1 (rle16ToList_bounded r2 h2) x]
    show _ = (seq64Contains b1 x && !(rle16Contains r2 x))
    rw [rle16Contains_eq]

theorem seq64DiffBlock_valid (b1 : Seq) (h1 : SeqValid64 b1) (b2 : Block)
    (h2 : b2.Valid) : SeqValid64 (seq64DiffBlock b1 b2) := by
  cases b2 with
  | seq64 s2 => exact seq64WordWise_valid Nat.ldiff b1 s2 h1 h2
  | seq16 s2 => exact foldl_seq64Remove_valid s2.vector b1 h1 h2.2.1
  | rle16 r2 => exact foldl_seq64Remove_valid _ b1 h1 (rle16ToList_bounded r2 h2)

theorem seq64XorBlock_contains (b1 : Seq) (h1 : SeqValid64 b1) (b2 : Block)
    (h2 : b2.Valid) (x : Nat) :
    seq64Contains (seq64XorBlock b1 b2) x =
      Bool.xor (seq64Contains b1 x) (b2.contains x) := by
  cases b2 with
  | seq64 s2 =>
    exact seq64WordWise_contains Nat.xor Bool.xor Nat.testBit_xor rfl b1 s2 h1.1 h2.1 x
  | seq16 s2 =>
    show seq64Contains (s2.vector.foldl seq64Toggle b1) x = _
    rw [foldl_seq64Toggle_contains s2.vector b1 h1.1 h2.2.1 (sorted_nodup _ h2.1) x]
    rfl
  | rle16 r2 =>
    show seq64Contains ((rle16ToList r2).foldl seq64Toggle b1) x = _
    rw [foldl_seq64Toggle_contains _ b1 h1.1 (rle16ToList_bounded r2 h2)
      (sorted_nodup _ (rle16ToList_sorted r2 h2)) x]
    show _ = Bool.xor (seq64Contains b1 x) (rle16Contains r2 x)
    rw [rle16Contains_eq]

theorem seq64XorBlock_valid (b1 : Seq) (h1 : SeqValid64 b1) (b2 : Block)
    (h2 : b2.Valid) : SeqValid64 (seq64XorBlock b1 b2) := by
  cases b2 with
  | seq64 s2 => exact seq64WordWise_valid Nat.xor b1 s2 h1 h2
  | seq16 s2 => exact foldl_seq64Toggle_valid s2.vector b1 h1 h2.2.1
  | rle16 r2 => exact foldl_seq64Toggle_valid _ b1 h1 (rle16ToList_bounded r2 h2)

theorem seq64InterBlock_contains (b1 : Seq) (h1 : SeqValid64 b1) (b2 : Block)
    (h2 : b2.Valid) (x : Nat) :
    seq64Contains (seq64InterBlock b1 b2) x =
      (seq64Contains b1 x && b2.contains x) := by
  cases b2 with
  | seq64 s2 =>
    exact seq64WordWise_contains Nat.land (· && ·) Nat.testBit_and rfl b1 s2 h1.1 h2.1 x
  | seq16 s2 =>
    show seq64Contains (seq64WordWise Nat.land b1 (seq64OfSeq16 s2)) x = _
    rw [seq64WordWise_contains Nat.land (· && ·) Nat.testBit_and rfl b1 _ h1.1
      (seq64OfSeq16_valid s2 h2).1 x]
    show _ = (seq64Contains b1 x && seq16Contains s2 x)
    rw [show seq64Contains (seq64OfSeq16 s2) x = s2.vector.contains x from
      seq64OfList_contains s2.vector h2.2.1 x]
    rfl
  | rle16 r2 =>
    show seq64Contains (seq64WordWise Nat.land b1 (seq64OfRle16 r2)) x = _
    rw [seq64WordWise_contains Nat.land (· && ·) Nat.testBit_and rfl b1 _ h1.1
      (seq64OfRle16_valid r2 h2).1 x]
    show _ = (seq64Contains b1 x && rle16Contains r2 x)
    rw [show seq64Contains (seq64OfRle16 r2) x = (rle16ToList r2).contains x from
      seq64OfList_contains _ (rle16ToList_bounded r2 h2) x]
    rw [rle16Contains_eq]

theorem seq64InterBlock_valid (b1 : Seq) (h1 : SeqValid64 b1) (b2 : Block)
    (h2 : b2.Valid) : SeqValid64 (seq64InterBlock b1 b2) := by
  cases b2 with
  | seq64 s2 => exact seq64WordWise_valid Nat.land b1 s2 h1 h2
  | seq16 s2 => exact seq64WordWise_valid Nat.land b1 _ h1 (seq64OfSeq16_valid s2 h2)
  | rle16 r2 => exact seq64WordWise_valid Nat.land b1 _ h1 (seq64OfRle16_valid r2 h2)

theorem filter_contains (l : List Nat) (p : Nat → Bool) (x : Nat) :
    (l.filter p).contains x = (l.contains x && p x) := by
  apply bool_eq_of_iff
  simp [List.mem_filter]

/-! ### Specifications of the four in-place operators -/

theorem interWith_spec (a b : Block) (hva : a.Valid) (hvb : b.Valid) :
    ∃ c, a.interWith b = some c ∧ c.Valid ∧
      ∀ x, c.contains x = (a.contains x && b.contains x) := by
  cases a with
  | seq16 s1 =>
    cases b with
    | seq16 s2 =>
      refine ⟨.seq16 (seq16Inter s1 s2), rfl, ?_, ?_⟩
      · exact ⟨hva.1.filter _, fun x hx => hva.2.1 x (List.mem_filter.mp hx).1, rfl⟩
      · intro x
        show (pairInter s1.vector s2.vector).contains x = _
        rw [pairInter_contains]
        rfl
    | seq64 s2 =>
      refine ⟨.seq16 (seq16InterSeq64 s1 s2), rfl, ?_, ?_⟩
      · exact ⟨hva.1.filter _, fun x hx => hva.2.1 x (List.mem_filter.mp hx).1, rfl⟩
      · intro x
        show (s1.vector.filter (fun y => seq64Contains s2 y)).contains x = _
        rw [filter_contains]
        rfl
    | rle16 r2 =>
      refine ⟨.seq64 (seq64InterBlock (seq64OfSeq16 s1) (.rle16 r2)), rfl, ?_, ?_⟩
      · exact seq64InterBlock_valid _ (seq64OfSeq16_valid s1 hva) _ hvb
      · intro x
        show seq64Contains (seq64InterBlock (seq64OfSeq16 s1) (.rle16 r2)) x = _
        rw [seq64InterBlock_contains _ (seq64OfSeq16_valid s1 hva) _ hvb x]
        rw [show seq64Contains (seq64OfSeq16 s1) x = s1.vector.contains x from
          seq64OfList_contains _ hva.2.1 x]
        rfl
  | seq64 s1 =>
    refine ⟨.seq64 (seq64InterBlock s1 b), ?_, seq64InterBlock_valid s1 hva b hvb, ?_⟩
    · cases b <;> rfl
    · intro x
      show seq64Contains (seq64InterBlock s1 b) x = _
      rw [seq64InterBlock_contains s1 hva b hvb x]
      rfl
  | rle16 r1 =>
    cases b with
    | rle16 r2 =>
      refine ⟨.rle16 (rleInter r1 r2), rfl, ?_, ?_⟩
      · apply rle16OfList_valid
        · exact (rle16ToList_sorted r1 hva).filter _
        · intro x hx
          exact rle16ToList_bounded r1 hva x (List.mem_filter.mp hx).1
      · intro x
        show rle16Contains (rleInter r1 r2) x = _
        rw [rle16Contains_eq, show rle16ToList (rleInter r1 r2) =
          pairInter (rle16ToList r1) (rle16ToList r2) from
          rle16OfList_toList _ ((rle16ToList_sorted r1 hva).filter _)]
        rw [pairInter_contains]
        show _ = (rle16Contains r1 x && rle16Contains r2 x)
        rw [rle16Contains_eq r1, rle16Contains_eq r2]
    | seq16 s2 =>
      refine ⟨.seq64 (seq64InterBlock (seq64OfRle16 r1) (.seq16 s2)), rfl, ?_, ?_⟩
      · exact seq64InterBlock_valid _ (seq64OfRle16_valid r1 hva) _ hvb
      · intro x
        show seq64Contains (seq64InterBlock (seq64OfRle16 r1) (.seq16 s2)) x = _
        rw [seq64InterBlock_contains _ (seq64OfRle16_valid r1 hva) _ hvb x]
        rw [show seq64Contains (seq64OfRle16 r1) x = (rle16ToList r1).contains x from
          seq64OfList_contains _ (rle16ToList_bounded r1 hva) x]
        rw [← rle16Contains_eq]
        rfl
    | seq64 s2 =>
      refine ⟨.seq64 (seq64InterBlock (seq64OfRle16 r1) (.seq64 s2)), rfl, ?_, ?_⟩
      · exact seq64InterBlock_valid _ (seq64OfRle16_valid r1 hva) _ hvb
      · intro x
        show seq64Contains (seq64InterBlock (seq64OfRle16 r1) (.seq64 s2)) x = _
        rw [seq64InterBlock_contains _ (seq64OfRle16_valid r1 hva) _ hvb x]
        rw [show seq64Contains (seq64OfRle16 r1) x = (rle16ToList r1).contains x from
          seq64OfList_contains _ (rle16ToList_bounded r1 hva) x]
        rw [← rle16Contains_eq]
        rfl

theorem unionWith_spec (a b : Block) (hva : a.Valid) (hvb : b.Valid) :
    ∃ c, a.unionWith b = some c ∧ c.Valid ∧
      ∀ x, c.contains x = (a.contains x || b.contains x) := by
  cases a with
  | seq16 s1 =>
    cases b with
    | seq16 s2 =>
      refine ⟨.seq16 (seq16Union s1 s2), rfl, ?_, ?_⟩
      · refine ⟨unionMerge_sorted _ _ hva.1 hvb.1, ?_, rfl⟩
        intro x hx
        rcases (mem_unionMerge _ _ x).mp hx with h | h
        · exact hva.2.1 x h
        · exact hvb.2.1 x h
      · intro x
        show (unionMerge s1.vector s2.vector).contains x = _
        rw [unionMerge_contains]
        rfl
    | seq64 s2 =>
      refine ⟨.seq64 (seq64UnionBlock (seq64OfSeq16 s1) (.seq64 s2)), rfl, ?_, ?_⟩
      · exact seq64UnionBlock_valid _ (seq64OfSeq16_valid s1 hva) _ hvb
      · intro x
        show seq64Contains (seq64UnionBlock (seq64OfSeq16 s1) (.seq64 s2)) x = _
        rw [seq64UnionBlock_contains _ (seq64OfSeq16_valid s1 hva) _ hvb x]
        rw [show seq64Contains (seq64OfSeq16 s1) x = s1.vector.contains x from
          seq64OfList_contains _ hva.2.1 x]
        rfl
    | rle16 r2 =>
      refine ⟨.seq64 (seq64UnionBlock (seq64OfSeq16 s1) (.rle16 r2)), rfl, ?_, ?_⟩
      · exact seq64UnionBlock_valid _ (seq64OfSeq16_valid s1 hva) _ hvb
      · intro x
        show seq64Contains (seq64UnionBlock (seq64OfSeq16 s1) (.rle16 r2)) x = _
        rw [seq64UnionBlock_contains _ (seq64OfSeq16_valid s1 hva) _ hvb x]
        rw [show seq64Contains (seq64OfSeq16 s1) x = s1.vector.contains x from
          seq64OfList_contains _ hva.2.1 x]
        rfl
  | seq64 s1 =>
    refine ⟨.seq64 (seq64UnionBlock s1 b), ?_, seq64UnionBlock_valid s1 hva b hvb, ?_⟩
    · cases b <;> rfl
    · intro x
      show seq64Contains (seq64UnionBlock s1 b) x = _
      rw [seq64UnionBlock_contains s1 hva b hvb x]
      rfl
  | rle16 r1 =>
    cases b with
    | rle16 r2 =>
      refine ⟨.rle16 (rleUnion r1 r2), rfl, ?_, ?_⟩
      · apply rle16OfList_valid
        · exact unionMerge_sorted _ _ (rle16ToList_sorted r1 hva) (rle16ToList_sorted r2 hvb)
        · intro x hx
          rcases (mem_unionMerge _ _ x).mp hx with h | h
          · exact rle16ToList_bounded r1 hva x h
          · exact rle16ToList_bounded r2 hvb x h
      · intro x
        show rle16Contains (rleUnion r1 r2) x = _
        rw [rle16Contains_eq, show rle16ToList (rleUnion r1 r2) =
          unionMerge (rle16ToList r1) (rle16ToList r2) from
          rle16OfList_toList _ (unionMerge_sorted _ _ (rle16ToList_sorted r1 hva)
            (rle16ToList_sorted r2 hvb))]
        rw [unionMerge_contains]
        show _ = (rle16Contains r1 x || rle16Contains r2 x)
        rw [rle16Contains_eq r1, rle16Contains_eq r2]
    | seq16 s2 =>
      refine ⟨.seq64 (seq64UnionBlock (seq64OfRle16 r1) (.seq16 s2)), rfl, ?_, ?_⟩
      · exact seq64UnionBlock_valid _ (seq64OfRle16_valid r1 hva) _ hvb
      · intro x
        show seq64Contains (seq64UnionBlock (seq64OfRle16 r1) (.seq16 s2)) x = _
        rw [seq64UnionBlock_contains _ (seq64OfRle16_valid r1 hva) _ hvb x]
        rw [show seq64Contains (seq64OfRle16 r1) x = (rle16ToList r1).contains x from
          seq64OfList_contains _ (rle16ToList_bounded r1 hva) x]
        rw [← rle16Contains_eq]
        rfl
    | seq64 s2 =>
      refine ⟨.seq64 (seq64UnionBlock (seq64OfRle16 r1) (.seq64 s2)), rfl, ?_, ?_⟩
      · exact seq64UnionBlock_valid _ (seq64OfRle16_valid r1 hva) _ hvb
      · intro x
        show seq64Contains (seq64UnionBlock (seq64OfRle16 r1) (.seq64 s2)) x = _
        rw [seq64UnionBlock_contains _ (seq64OfRle16_valid r1 hva) _ hvb x]
        rw [show seq64Contains (seq64OfRle16 r1) x = (rle16ToList r1).contains x from
          seq64OfList_contains _ (rle16ToList_bounded r1 hva) x]
        rw [← rle16Contains_eq]
        rfl

theorem diffWith_spec (a b : Block) (hva : a.Valid) (hvb : b.Valid) :
    ∃ c, a.diffWith b = some c ∧ c.Valid ∧
      ∀ x, c.contains x = (a.contains x && !(b.contains x)) := by
  cases a with
  | seq16 s1 =>
    cases b with
    | seq16 s2 =>
      refine ⟨.seq16 (seq16Diff s1 s2), rfl, ?_, ?_⟩
      · exact ⟨hva.1.filter _, fun x hx => hva.2.1 x (List.mem_filter.mp hx).1, rfl⟩
      · intro x
        show (pairDiff s1.vector s2.vector).contains x = _
        rw [pairDiff_contains]
        rfl
    | seq64 s2 =>
      refine ⟨.seq64 (seq64DiffBlock (seq64OfSeq16 s1) (.seq64 s2)), rfl, ?_, ?_⟩
      · exact seq64DiffBlock_valid _ (seq64OfSeq16_valid s1 hva) _ hvb
      · intro x
        show seq64Contains (seq64DiffBlock (seq64OfSeq16 s1) (.seq64 s2)) x = _
        rw [seq64DiffBlock_contains _ (seq64OfSeq16_valid s1 hva) _ hvb x]
        rw [show seq64Contains (seq64OfSeq16 s1) x = s1.vector.contains x from
          seq64OfList_contains _ hva.2.1 x]
        rfl
    | rle16 r2 =>
      refine ⟨.seq64 (seq64DiffBlock (seq64OfSeq16 s1) (.rle16 r2)), rfl, ?_, ?_⟩
      · exact seq64DiffBlock_valid _ (seq64OfSeq16_valid s1 hva) _ hvb
      · intro x
        show seq64Contains (seq64DiffBlock (seq64OfSeq16 s1) (.rle16 r2)) x = _
        rw [seq64DiffBlock_contains _ (seq64OfSeq16_valid s1 hva) _ hvb x]
        rw [show seq64Contains (seq64OfSeq16 s1) x = s1.vector.contains x from
          seq64OfList_contains _ hva.2.1 x]
        rfl
  | seq64 s1 =>
    refine ⟨.seq64 (seq64DiffBlock s1 b), ?_, seq64DiffBlock_valid s1 hva b hvb, ?_⟩
    · cases b <;> rfl
    · intro x
      show seq64Contains (seq64DiffBlock s1 b) x = _
      rw [seq64DiffBlock_contains s1 hva b hvb x]
      rfl
  | rle16 r1 =>
    cases b with
    | rle16 r2 =>
      refine ⟨.rle16 (rleDiff r1 r2), rfl, ?_, ?_⟩
      · apply rle16OfList_valid
        · exact (rle16ToList_sorted r1 hva).filter _
        · intro x hx
          exact rle16ToList_bounded r1 hva x (List.mem_filter.mp hx).1
      · intro x
        show rle16Contains (rleDiff r1 r2) x = _
        rw [rle16Contains_eq, show rle16ToList (rleDiff r1 r2) =
          pairDiff (rle16ToList r1) (rle16ToList r2) from
          rle16OfList_toList _ ((rle16ToList_sorted r1 hva).filter _)]
        rw [pairDiff_contains]
        show _ = (rle16Contains r1 x && !(rle16Contains r2 x))
        rw [rle16Contains_eq r1, rle16Contains_eq r2]
    | seq16 s2 =>
      refine ⟨.seq64 (seq64DiffBlock (seq64OfRle16 r1) (.seq16 s2)), rfl, ?_, ?_⟩
      · exact seq64DiffBlock_valid _ (seq64OfRle16_valid r1 hva) _ hvb
      · intro x
        show seq64Contains (seq64DiffBlock (seq64OfRle16 r1) (.seq16 s2)) x = _
        rw [seq64DiffBlock_contains _ (seq64OfRle16_valid r1 hva) _ hvb x]
        rw [show seq64Contains (seq64OfRle16 r1) x = (rle16ToList r1).contains x from
          seq64OfList_contains _ (rle16ToList_bounded r1 hva) x]
        rw [← rle16Contains_eq]
        rfl
    | seq64 s2 =>
      refine ⟨.seq64 (seq64DiffBlock (seq64OfRle16 r1) (.seq64 s2)), rfl, ?_, ?_⟩
      · exact seq64DiffBlock_valid _ (seq64OfRle16_valid r1 hva) _ hvb
      · intro x
        show seq64Contains (seq64DiffBlock (seq64OfRle16 r1) (.seq64 s2)) x = _
        rw [seq64DiffBlock_contains _ (seq64OfRle16_valid r1 hva) _ hvb x]
        rw [show seq64Contains (seq64OfRle16 r1) x = (rle16ToList r1).contains x from
          seq64OfList_contains _ (rle16ToList_bounded r1 hva) x]
        rw [← rle16Contains_eq]
        rfl

theorem symmDiffWith_spec (a b : Block) (hva : a.Valid) (hvb : b.Valid) :
    ∃ c, a.symmDiffWith b = some c ∧ c.Valid ∧
      ∀ x, c.contains x = Bool.xor (a.contains x) (b.contains x) := by
  cases a with
  | seq16 s1 =>
    cases b with
    | seq16 s2 =>
      refine ⟨.seq16 (seq16Xor s1 s2), rfl, ?_, ?_⟩
      · refine ⟨xorMerge_sorted _ _ hva.1 hvb.1, ?_, rfl⟩
        intro x hx
        rcases xorMerge_subset _ _ x hx with h | h
        · exact hva.2.1 x h
        · exact hvb.2.1 x h
      · intro x
        show (xorMerge s1.vector s2.vector).contains x = _
        rw [xorMerge_contains _ _ hva.1 hvb.1]
        rfl
    | seq64 s2 =>
      refine ⟨.seq64 (seq64XorBlock (seq64OfSeq16 s1) (.seq64 s2)), rfl, ?_, ?_⟩
      · exact seq64XorBlock_valid _ (seq64OfSeq16_valid s1 hva) _ hvb
      · intro x
        show seq64Contains (seq64XorBlock (seq64OfSeq16 s1) (.seq64 s2)) x = _
        rw [seq64XorBlock_contains _ (seq64OfSeq16_valid s1 hva) _ hvb x]
        rw [show seq64Contains (seq64OfSeq16 s1) x = s1.vector.contains x from
          seq64OfList_contains _ hva.2.1 x]
        rfl
    | rle16 r2 =>
      refine ⟨.seq64 (seq64XorBlock (seq64OfSeq16 s1) (.rle16 r2)), rfl, ?_, ?_⟩
      · exact seq64XorBlock_valid _ (seq64OfSeq16_valid s1 hva) _ hvb
      · intro x
        show seq64Contains (seq64XorBlock (seq64OfSeq16 s1) (.rle16 r2)) x = _
        rw [seq64XorBlock_contains _ (seq64OfSeq16_valid s1 hva) _ hvb x]
        rw [show seq64Contains (seq64OfSeq16 s1) x = s1.vector.contains x from
          seq64OfList_contains _ hva.2.1 x]
        rfl
  | seq64 s1 =>
    refine ⟨.seq64 (seq64XorBlock s1 b), ?_, seq64XorBlock_valid s1 hva b hvb, ?_⟩
    · cases b <;> rfl
    · intro x
      show seq64Contains (seq64XorBlock s1 b) x = _
      rw [seq64XorBlock_contains s1 hva b hvb x]
      rfl
  | rle16 r1 =>
    cases b with
    | rle16 r2 =>
      refine ⟨.rle16 (rleXor r1 r2), rfl, ?_, ?_⟩
      · apply rle16OfList_valid
        · exact xorMerge_sorted _ _ (rle16ToList_sorted r1 hva) (rle16ToList_sorted r2 hvb)
        · intro x hx
          rcases xorMerge_subset _ _ x hx with h | h
          · exact rle16ToList_bounded r1 hva x h
          · exact rle16ToList_bounded r2 hvb x h
      · intro x
        show rle16Contains (rleXor r1 r2) x = _
        rw [rle16Contains_eq, show rle16ToList (rleXor r1 r2) =
          xorMerge (rle16ToList r1) (rle16ToList r2) from
          rle16OfList_toList _ (xorMerge_sorted _ _ (rle16ToList_sorted r1 hva)
            (rle16ToList_sorted r2 hvb))]
        rw [xorMerge_contains _ _ (rle16ToList_sorted r1 hva) (rle16ToList_sorted r2 hvb)]
        show _ = Bool.xor (rle16Contains r1 x) (rle16Contains r2 x)
        rw [rle16Contains_eq r1, rle16Contains_eq r2]
    | seq16 s2 =>
      refine ⟨.seq64 (seq64XorBlock (seq64OfRle16 r1) (.seq16 s2)), rfl, ?_, ?_⟩
      · exact seq64XorBlock_valid _ (seq64OfRle16_valid r1 hva) _ hvb
      · intro x
        show seq64Contains (seq64XorBlock (seq64OfRle16 r1) (.seq16 s2)) x = _
        rw [seq64XorBlock_contains _ (seq64OfRle16_valid r1 hva) _ hvb x]
        rw [show seq64Contains (seq64OfRle16 r1) x = (rle16ToList r1).contains x from
          seq64OfList_contains _ (rle16ToList_bounded r1 hva) x]
        rw [← rle16Contains_eq]
        rfl
    | seq64 s2 =>
      refine ⟨.seq64 (seq64XorBlock (seq64OfRle16 r1) (.seq64 s2)), rfl, ?_, ?_⟩
      · exact seq64XorBlock_valid _ (seq64OfRle16_valid r1 hva) _ hvb
      · intro x
        show seq64Contains (seq64XorBlock (seq64OfRle16 r1) (.seq64 s2)) x = _
        rw [seq64XorBlock_contains _ (seq64OfRle16_valid r1 hva) _ hvb x]
        rw [show seq64Contains (seq64OfRle16 r1) x = (rle16ToList r1).contains x from
          seq64OfList_contains _ (rle16ToList_bounded r1 hva) x]
        rw [← rle16Contains_eq]
        rfl

/-! ### Specifications of the four allocating operators -/

theorem inter_spec (a b : Block) (hva : a.Valid) (hvb : b.Valid) :
    ∃ c, a.inter b = some c ∧ c.Valid ∧
      ∀ x, c.contains x = (a.contains x && b.contains x) := by
  cases a with
  | seq16 s1 =>
    cases b with
    | seq16 s2 =>
      have hbnd : ∀ y ∈ pairInter s1.vector s2.vector, y < 65536 :=
        fun y hy => hva.2.1 y (List.mem_filter.mp hy).1
      refine ⟨collectBlock (pairInter s1.vector s2.vector), rfl, ?_, ?_⟩
      · exact seq64OfList_valid _ hbnd
      · intro x
        show seq64Contains (seq64OfList (pairInter s1.vector s2.vector)) x = _
        rw [seq64OfList_contains _ hbnd x, pairInter_contains]
        rfl
    | seq64 s2 => exact interWith_spec _ _ hva hvb
    | rle16 r2 => exact interWith_spec _ _ hva hvb
  | seq64 s1 => exact interWith_spec _ _ hva hvb
  | rle16 r1 =>
    cases b with
    | seq16 s2 => exact interWith_spec _ _ hva hvb
    | seq64 s2 => exact interWith_spec _ _ hva hvb
    | rle16 r2 => exact interWith_spec _ _ hva hvb

theorem union_spec (a b : Block) (hva : a.Valid) (hvb : b.Valid) :
    ∃ c, a.union b = some c ∧ c.Valid ∧
      ∀ x, c.contains x = (a.contains x || b.contains x) := by
  cases a with
  | seq16 s1 =>
    cases b with
    | seq16 s2 =>
      have hbnd : ∀ y ∈ unionMerge s1.vector s2.vector, y < 65536 := by
        intro y hy
        rcases (mem_unionMerge _ _ y).mp hy with h | h
        · exact hva.2.1 y h
        · exact hvb.2.1 y h
      refine ⟨collectBlock (unionMerge s1.vector s2.vector), rfl, ?_, ?_⟩
      · exact seq64OfList_valid _ hbnd
      · intro x
        show seq64Contains (seq64OfList (unionMerge s1.vector s2.vector)) x = _
        rw [seq64OfList_contains _ hbnd x, unionMerge_contains]
        rfl
    | seq64 s2 => exact unionWith_spec _ _ hva hvb
    | rle16 r2 => exact unionWith_spec _ _ hva hvb
  | seq64 s1 => exact unionWith_spec _ _ hva hvb
  | rle16 r1 =>
    cases b with
    | seq16 s2 => exact unionWith_spec _ _ hva hvb
    | seq64 s2 => exact unionWith_spec _ _ hva hvb
    | rle16 r2 => exact unionWith_spec _ _ hva hvb

theorem diff_spec (a b : Block) (hva : a.Valid) (hvb : b.Valid) :
    ∃ c, a.diff b = some c ∧ c.Valid ∧
      ∀ x, c.contains x = (a.contains x && !(b.contains x)) := by
  cases a with
  | seq16 s1 =>
    cases b with
    | seq16 s2 =>
      have hbnd : ∀ y ∈ pairDiff s1.vector s2.vector, y < 65536 :=
        fun y hy => hva.2.1 y (List.mem_filter.mp hy).1
      refine ⟨collectBlock (pairDiff s1.vector s2.vector), rfl, ?_, ?_⟩
      · exact seq64OfList_valid _ hbnd
      · intro x
        show seq64Contains (seq64OfList (pairDiff s1.vector s2.vector)) x = _
        rw [seq64OfList_contains _ hbnd x, pairDiff_contains]
        rfl
    | seq64 s2 => exact diffWith_spec _ _ hva hvb
    | rle16 r2 => exact diffWith_spec _ _ hva hvb
  | seq64 s1 => exact diffWith_spec _ _ hva hvb
  | rle16 r1 =>
    cases b with
    | seq16 s2 => exact diffWith_spec _ _ hva hvb
    | seq64 s2 => exact diffWith_spec _ _ hva hvb
    | rle16 r2 => exact diffWith_spec _ _ hva hvb

theorem symmDiff_spec (a b : Block) (hva : a.Valid) (hvb : b.Valid) :
    ∃ c, a.symmDiff b = some c ∧ c.Valid ∧
      ∀ x, c.contains x = Bool.xor (a.contains x) (b.contains x) := by
  cases a with
  | seq16 s1 =>
    cases b with
    | seq16 s2 =>
      have hbnd : ∀ y ∈ xorMerge s1.vector s2.vector, y < 65536 := by
        intro y hy
        rcases xorMerge_subset _ _ y hy with h | h
        · exact hva.2.1 y h
        · exact hvb.2.1 y h
      refine ⟨collectBlock (xorMerge s1.vector s2.vector), rfl, ?_, ?_⟩
      · exact seq64OfList_valid _ hbnd
      · intro x
        show seq64Contains (seq64OfList (xorMerge s1.vector s2.vector)) x = _
        rw [seq64OfList_contains _ hbnd x, xorMerge_contains _ _ hva.1 hvb.1]
        rfl
    | seq64 s2 => exact symmDiffWith_spec _ _ hva hvb
    | rle16 r2 => exact symmDiffWith_spec _ _ hva hvb
  | seq64 s1 => exact symmDiffWith_spec _ _ hva hvb
  | rle16 r1 =>
    cases b with
    | seq16 s2 => exact symmDiffWith_spec _ _ hva hvb
    | seq64 s2 => exact symmDiffWith_spec _ _ hva hvb
    | rle16 r2 => exact symmDiffWith_spec _ _ hva hvb

/-- C7: on every pair of valid blocks, the symmetric difference has the
same membership function as the difference of the union and the
intersection: `a △ b = (a ∪ b) − (a ∩ b)`. -/
theorem symm_diff_is_union_minus_inter (a b : Block) (hva : a.Valid)
    (hvb : b.Valid) (x : Nat) :
    (a.symmDiff b).map (fun c => c.contains x) =
      ((a.union b).bind (fun u => (a.inter b).bind (fun i => u.diff i))).map
        (fun c => c.contains x) := by
  obtain ⟨s, hs, hsv, hsc⟩ := symmDiff_spec a b hva hvb
  obtain ⟨u, hu, huv, huc⟩ := union_spec a b hva hvb
  obtain ⟨i, hi, hiv, hic⟩ := inter_spec a b hva hvb
  obtain ⟨d, hd, hdv, hdc⟩ := diff_spec u i huv hiv
  rw [hs, hu, hi]
  show some (s.contains x) = (u.diff i).map (fun c => c.contains x)
  rw [hd]
  show some (s.contains x) = some (d.contains x)
  rw [hsc x, hdc x, huc x, hic x]
  cases a.contains x <;> cases b.contains x <;> rfl

theorem symm_diff_is_union_minus_inter_witness :
    (Block.seq16 ⟨2, [1, 2]⟩).Valid ∧ (Block.rle16 ⟨2, [(2, 3)]⟩).Valid ∧
      ((Block.seq16 ⟨2, [1, 2]⟩).symmDiff (Block.rle16 ⟨2, [(2, 3)]⟩)).map
          (fun c => c.contains 2) =
        (((Block.seq16 ⟨2, [1, 2]⟩).union (Block.rle16 ⟨2, [(2, 3)]⟩)).bind
          (fun u => ((Block.seq16 ⟨2, [1, 2]⟩).inter (Block.rle16 ⟨2, [(2, 3)]⟩)).bind
            (fun i => u.diff i))).map (fun c => c.contains 2) :=
  ⟨by decide, by decide,
    symm_diff_is_union_minus_inter _ _ (by decide) (by decide) 2⟩

/-- C9: no execution path of the four in-place pairwise operators reaches
the `unreachable!()` branch of `as_seq64` — every fallback arm's left
operand is a `Seq16` or an `Rle16`, so the result is always present. -/
theorem pairwise_fallback_never_panics (a b : Block) :
    (a.interWith b).isSome ∧ (a.unionWith b).isSome ∧
      (a.diffWith b).isSome ∧ (a.symmDiffWith b).isSome := by
  cases a <;> cases b <;> exact ⟨rfl, rfl, rfl, rfl⟩

end Cds
